import Mathlib

/-!
Verification of the core logic of the `packagejson` aggregation proxy:
the repository-URL parser, the dependency version aggregator, the
deployment matcher, and the enhanced-repository assembler.

JavaScript string matching (`String.prototype.match` with the literal
regexes of the source) is embedded by a small backtracking regex engine
whose outcome list is ordered exactly as a JS backtracking matcher
explores alternatives: leftmost starting position first, and at a given
position, greedy quantifiers longest-first, alternation left branch
first.  `String.prototype.match` (no global flag) returns the captures
of the first outcome at the leftmost matching position.
-/

namespace PackageJson

namespace Rex

/-- Capture slots 1-4 of a JS regex match (`match[1]` .. `match[4]`);
`none` models an unset (`undefined`) group. -/
structure Caps where
  s1 : Option (List Char)
  s2 : Option (List Char)
  s3 : Option (List Char)
  s4 : Option (List Char)
deriving DecidableEq, Repr

/-- All capture groups unset, the state before a match attempt. -/
def Caps.empty : Caps := ⟨none, none, none, none⟩

/-- Read capture slot `i` (1-4). -/
def Caps.get (c : Caps) (i : Nat) : Option (List Char) :=
  match i with
  | 1 => c.s1
  | 2 => c.s2
  | 3 => c.s3
  | 4 => c.s4
  | _ => none

/-- Overwrite capture slot `i` (1-4). -/
def Caps.set (c : Caps) (i : Nat) (v : List Char) : Caps :=
  match i with
  | 1 => { c with s1 := some v }
  | 2 => { c with s2 := some v }
  | 3 => { c with s3 := some v }
  | 4 => { c with s4 := some v }
  | _ => c

/-- Abstract syntax of the fragment of JS regexes used by the source:
literals, character classes under `+` and `{lo,hi}`, `(?:...)?`,
alternation, concatenation, capture groups, and the anchors `^` / `$`. -/
inductive RE where
  | bol : RE
  | eos : RE
  | lit : List Char → RE
  | one : (Char → Bool) → RE
  | plus : (Char → Bool) → RE
  | rep : (Char → Bool) → Nat → Nat → RE
  | opt : RE → RE
  | alt : RE → RE → RE
  | cat : RE → RE → RE
  | grp : Nat → RE → RE

/-- One partial-match outcome: absolute position reached, remaining
input, captures so far. -/
structure MRes where
  pos : Nat
  rest : List Char
  caps : Caps
deriving DecidableEq, Repr

/-- `[n, n-1, ..., 1]`: the order in which a greedy quantifier hands
back repetition counts while backtracking. -/
def downFrom : Nat → List Nat
  | 0 => []
  | n + 1 => (n + 1) :: downFrom n

/-- Backtracking matcher.  `p` is the absolute position of `cs` inside
the whole subject (needed for the `^` anchor and for capture
extraction).  The returned list enumerates every way the node can
match a prefix of `cs`, in JS backtracking priority order; a JS engine
commits to the head outcome. -/
def mtch : RE → Nat → List Char → Caps → List MRes
  | .bol, p, cs, caps => if p = 0 then [⟨p, cs, caps⟩] else []
  | .eos, p, cs, caps => if cs.isEmpty then [⟨p, cs, caps⟩] else []
  | .lit s, p, cs, caps =>
      if s.isPrefixOf cs then [⟨p + s.length, cs.drop s.length, caps⟩] else []
  | .one f, p, cs, caps =>
      match cs with
      | [] => []
      | c :: rest => if f c then [⟨p + 1, rest, caps⟩] else []
  | .plus f, p, cs, caps =>
      (downFrom (cs.takeWhile f).length).map (fun k => ⟨p + k, cs.drop k, caps⟩)
  | .rep f lo hi, p, cs, caps =>
      ((downFrom (min (cs.takeWhile f).length hi)).filter (fun k => lo ≤ k)).map
        (fun k => ⟨p + k, cs.drop k, caps⟩)
  | .opt r, p, cs, caps => mtch r p cs caps ++ [⟨p, cs, caps⟩]
  | .alt a b, p, cs, caps => mtch a p cs caps ++ mtch b p cs caps
  | .cat a b, p, cs, caps =>
      (mtch a p cs caps).flatMap (fun m => mtch b m.pos m.rest m.caps)
  | .grp i r, p, cs, caps =>
      (mtch r p cs caps).map (fun m => ⟨m.pos, m.rest, m.caps.set i (cs.take (m.pos - p))⟩)

/-- `String.prototype.match` scan: try each start position left to
right; at the first position with a successful match, return the
captures of the highest-priority outcome. -/
def searchFrom (r : RE) : Nat → List Char → Option Caps
  | p, [] =>
    match mtch r p [] Caps.empty with
    | m :: _ => some m.caps
    | [] => none
  | p, c :: rest =>
    match mtch r p (c :: rest) Caps.empty with
    | m :: _ => some m.caps
    | [] => searchFrom r (p + 1) rest

/-- `s.match(r)` restricted to its captures; `none` models a `null`
match result. -/
def search (r : RE) (cs : List Char) : Option Caps :=
  searchFrom r 0 cs

end Rex

open Rex

/-- `{ owner, name }` as returned by `parseRepoUrl`. -/
structure RepoRef where
  owner : String
  name : String
deriving DecidableEq, Repr

/-- A JS argument value as far as `parseRepoUrl` inspects it: a string,
`null`/`undefined`, or any non-string value. -/
inductive JSArg where
  | str : String → JSArg
  | nullv : JSArg
  | nonString : JSArg
deriving DecidableEq, Repr

/-- Class `[^\/]+`. -/
def notSlash (c : Char) : Bool := c ≠ '/'

/-- Class `[^\/\.]+`. -/
def notSlashDot (c : Char) : Bool := c ≠ '/' && c ≠ '.'

/-- `/(?:https?:\/\/)?(?:www\.)?github\.com\/([^\/]+)\/([^\/\.]+)(?:\.git)?/`
(the web-URL rule of `parseRepoUrl`, transliterated node for node). -/
def githubWebRE : RE :=
  .cat (.opt (.cat (.lit ('h' :: 't' :: 't' :: 'p' :: []))
          (.cat (.opt (.lit ('s' :: []))) (.lit (':' :: '/' :: '/' :: [])))))
    (.cat (.opt (.lit ('w' :: 'w' :: 'w' :: '.' :: [])))
      (.cat (.lit ('g' :: 'i' :: 't' :: 'h' :: 'u' :: 'b' :: '.' :: 'c' :: 'o' :: 'm' :: '/' :: []))
        (.cat (.grp 1 (.plus notSlash))
          (.cat (.lit ('/' :: []))
            (.cat (.grp 2 (.plus notSlashDot))
              (.opt (.lit ('.' :: 'g' :: 'i' :: 't' :: []))))))))

/-- `/git@github\.com:([^\/]+)\/([^\/\.]+)(?:\.git)?/` (the SSH rule). -/
def gitSshRE : RE :=
  .cat (.lit ('g' :: 'i' :: 't' :: '@' :: 'g' :: 'i' :: 't' :: 'h' :: 'u' :: 'b' :: '.' :: 'c' :: 'o' :: 'm' :: ':' :: []))
    (.cat (.grp 1 (.plus notSlash))
      (.cat (.lit ('/' :: []))
        (.cat (.grp 2 (.plus notSlashDot))
          (.opt (.lit ('.' :: 'g' :: 'i' :: 't' :: []))))))

/-- `/^([^\/]+)\/([^\/]+)$/` (the bare `owner/name` rule). -/
def ownerRepoRE : RE :=
  .cat .bol
    (.cat (.grp 1 (.plus notSlash))
      (.cat (.lit ('/' :: []))
        (.cat (.grp 2 (.plus notSlash)) .eos)))

/-- Build `{ owner: match[1], name: match[2] }`.  For the three regexes
above both groups participate in every successful match, so the
defaulting never fires on a reachable path. -/
def refOfCaps (caps : Caps) : RepoRef :=
  ⟨String.mk (caps.s1.getD []), String.mk (caps.s2.getD [])⟩

/-- `parseRepoUrl` from the source: reject falsy / non-string input,
then try the web-URL regex, the `git@` regex, and the bare
`owner/repo` regex in that order; `null` when none matches. -/
def parseRepoUrl (repoUrl : JSArg) : Option RepoRef :=
  match repoUrl with
  | .nullv => none
  | .nonString => none
  | .str s =>
    if s = "" then none
    else
      match Rex.search githubWebRE s.data with
      | some caps => some (refOfCaps caps)
      | none =>
        match Rex.search gitSshRE s.data with
        | some caps => some (refOfCaps caps)
        | none =>
          match Rex.search ownerRepoRE s.data with
          | some caps => some (refOfCaps caps)
          | none => none

/-! ## The `semver` library surface used by `aggregateVersion`

`semver.coerce` matches the string against
`/(^|[^\d])(\d{1,16})(?:\.(\d{1,16}))?(?:\.(\d{1,16}))?(?:$|[^\d])/`
and, on a match, strictly parses `` `${m[2]}.${m[3] || '0'}.${m[4] || '0'}` ``
as a semantic version; a numeric identifier is valid when it has no
leading zero and does not exceed `Number.MAX_SAFE_INTEGER`.
Coerced versions carry no prerelease, so `semver.lt` / `semver.gt`
compare `(major, minor, patch)` lexicographically. -/

/-- `Number.MAX_SAFE_INTEGER`. -/
def maxSafeInteger : Nat := 9007199254740991

/-- A concrete `major.minor.patch` version (the payload of a coerced
`SemVer` object). -/
structure Triple where
  major : Nat
  minor : Nat
  patch : Nat
deriving DecidableEq, Repr

/-- `semver`'s COERCE regex, transliterated. -/
def coerceRE : RE :=
  .cat (.grp 1 (.alt .bol (.one (fun c => !c.isDigit))))
    (.cat (.grp 2 (.rep Char.isDigit 1 16))
      (.cat (.opt (.cat (.lit ('.' :: [])) (.grp 3 (.rep Char.isDigit 1 16))))
        (.cat (.opt (.cat (.lit ('.' :: [])) (.grp 4 (.rep Char.isDigit 1 16))))
          (.alt .eos (.one (fun c => !c.isDigit))))))

/-- Decimal value of a digit string (`+str` on an all-digit string). -/
def decVal (xs : List Char) : Nat :=
  xs.foldl (fun a c => 10 * a + (c.toNat - 48)) 0

/-- Strict-`semver` numeric identifier check (`0|[1-9]\d*`): nonempty,
and no leading zero unless the identifier is exactly `0`. -/
def numIdOk (xs : List Char) : Bool :=
  match xs with
  | [] => false
  | _ :: [] => true
  | c :: _ :: _ => c ≠ '0'

/-- Parse one numeric identifier under the strict semver grammar with
the `MAX_SAFE_INTEGER` bound of the `SemVer` constructor. -/
def parseNumId (xs : List Char) : Option Nat :=
  if numIdOk xs && decVal xs ≤ maxSafeInteger then some (decVal xs) else none

/-- `semver.coerce`: COERCE-regex search, then strict parse of the
rebuilt `major.minor.patch` string (missing minor/patch become `0`);
`none` models `null`. -/
def coerce (s : String) : Option Triple :=
  match Rex.search coerceRE s.data with
  | none => none
  | some caps =>
    match parseNumId (caps.s2.getD []), parseNumId (caps.s3.getD ('0' :: [])),
        parseNumId (caps.s4.getD ('0' :: [])) with
    | some a, some b, some c => some ⟨a, b, c⟩
    | _, _, _ => none

/-- Fuel-driven digit expansion (structural, so that the kernel can
evaluate it); `decRepr` supplies enough fuel. -/
def decReprAux : Nat → Nat → List Char
  | 0, _ => []
  | fuel + 1, n =>
    if n < 10 then (Nat.digitChar n) :: []
    else decReprAux fuel (n / 10) ++ (Nat.digitChar (n % 10)) :: []

/-- Decimal digit characters of a natural number (JS `Number` to string
for integers). -/
def decRepr (n : Nat) : List Char := decReprAux (n + 1) n

/-- The `.version` string of a coerced `SemVer` object. -/
def verString (t : Triple) : String :=
  String.mk (decRepr t.major ++ '.' :: decRepr t.minor ++ '.' :: decRepr t.patch)

/-- `semver.lt` on two coerced (prerelease-free) versions. -/
def tripleLt (a b : Triple) : Bool :=
  a.major < b.major ||
    (a.major = b.major &&
      (a.minor < b.minor || (a.minor = b.minor && a.patch < b.patch)))

/-! ## JS objects as creation-ordered association lists

A plain JS object stores string-keyed properties in creation order;
assigning an existing key keeps its position, assigning a fresh key
appends.  Enumeration (`Object.keys`, `Object.entries`,
`JSON.stringify`) applies the ECMAScript `[[OwnPropertyKeys]]` rule on
top of that: keys that are canonical array indices come first in
ascending numeric order, the remaining string keys follow in creation
order. -/

/-- Creation-ordered JS object. -/
abbrev JsObj (α : Type) : Type := List (String × α)

/-- `obj[k]`: `none` models `undefined`. -/
def JsObj.get {α : Type} (o : JsObj α) (k : String) : Option α :=
  match o with
  | [] => none
  | (k', v) :: rest => if k' = k then some v else JsObj.get rest k

/-- `obj[k] = v`: overwrite in place, or append a fresh key. -/
def JsObj.set {α : Type} (o : JsObj α) (k : String) (v : α) : JsObj α :=
  match o with
  | [] => (k, v) :: []
  | (k', v') :: rest =>
      if k' = k then (k', v) :: rest else (k', v') :: JsObj.set rest k v

/-- A canonical array-index key (ECMAScript): the canonical decimal
form of an integer `0 ≤ n < 2^32 - 1` — all digits, no leading zero,
value below `4294967295`. -/
def isArrayIndex (s : String) : Bool :=
  match s.data with
  | [] => false
  | c :: cs =>
    (c :: cs).all Char.isDigit && (cs.isEmpty || c ≠ '0') &&
      decVal (c :: cs) < 4294967295

/-- Ascending numeric order on array-index keys. -/
def numKeyLe (a b : String) : Prop := decVal a.data ≤ decVal b.data

instance : DecidableRel numKeyLe := by
  intro a b; unfold numKeyLe; infer_instance

instance : IsTotal String numKeyLe where
  total := fun _ _ => Nat.le_total _ _

instance : IsTrans String numKeyLe where
  trans := fun _ _ _ => Nat.le_trans

/-- `Object.keys` under `[[OwnPropertyKeys]]`: array-index keys in
ascending numeric order first, then the remaining keys in creation
order. -/
def JsObj.keys {α : Type} (o : JsObj α) : List String :=
  let ks := o.map Prod.fst
  List.insertionSort numKeyLe (ks.filter isArrayIndex) ++
    ks.filter (fun k => !isArrayIndex k)

/-! ## `aggregateVersion` and `fetchAggregatedData` (github.js) -/

/-- `tempData[depType][name]`: the running `{min, max}` version pair,
both stored as `.version` strings. -/
structure VersionData where
  min : String
  max : String
deriving DecidableEq, Repr

/-- The first loop of `aggregateVersion`, one entry at a time.
`semver.coerce` of a non-coercible specifier is `null`, and the code
then either reads `.version` of `null` (fresh name) or hands `null` to
`semver.lt` (known name): both throw a `TypeError`, modelled as
`Except.error`. -/
def aggEntries : List (String × String) → JsObj VersionData →
    Except String (JsObj VersionData)
  | [], td => .ok td
  | (name, version) :: rest, td =>
    match td.get name with
    | none =>
      match coerce version with
      | none => .error "TypeError: cannot read version of null"
      | some cv =>
          aggEntries rest (td.set name ⟨verString cv, verString cv⟩)
    | some vd =>
      match coerce version, coerce vd.min, coerce vd.max with
      | some cv, some cmin, some cmax =>
          aggEntries rest (td.set name
            ⟨if tripleLt cv cmin then verString cv else vd.min,
             if tripleLt cmax cv then verString cv else vd.max⟩)
      | _, _, _ => .error "TypeError: invalid version"

/-- The second loop of `aggregateVersion`: write every name of
`tempData[depType]` into `aggregated` under the requested policy
(an unknown policy assigns nothing). -/
def emitAggregated (aggregated : JsObj String) (td : JsObj VersionData)
    (versionType : String) : JsObj String :=
  td.foldl
    (fun agg nv =>
      if versionType = "min" then agg.set nv.1 nv.2.min
      else if versionType = "max" then agg.set nv.1 nv.2.max
      else if versionType = "minmax" then
        agg.set nv.1
          (if nv.2.min = nv.2.max then nv.2.min
           else nv.2.min ++ " - " ++ nv.2.max)
      else agg)
    aggregated

/-- `aggregateVersion(aggregated, current, versionType, depType,
tempData)`: both loops; mutation of `aggregated` and
`tempData[depType]` is returned as a pair.  `current || {}` turns an
absent dependency map into the empty object. -/
def aggregateVersion (aggregated : JsObj String)
    (current : Option (JsObj String)) (versionType : String)
    (tempTd : JsObj VersionData) :
    Except String (JsObj String × JsObj VersionData) :=
  match aggEntries (current.getD []) tempTd with
  | .error e => .error e
  | .ok td => .ok (emitAggregated aggregated td versionType, td)

/-- UTF-16 code units of one code point: a BMP scalar is one unit, a
supplementary-plane character a surrogate pair. -/
def utf16Units (c : Char) : List Nat :=
  if c.toNat < 65536 then c.toNat :: []
  else (55296 + (c.toNat - 65536) / 1024) ::
    (56320 + (c.toNat - 65536) % 1024) :: []

/-- UTF-16 code-unit sequence of a string (the representation JS
strings are compared by). -/
def utf16 : List Char → List Nat
  | [] => []
  | c :: cs => utf16Units c ++ utf16 cs

/-- Lexicographic `≤` on code-unit sequences. -/
def unitListLe : List Nat → List Nat → Bool
  | [], _ => true
  | _ :: _, [] => false
  | a :: as, b :: bs =>
    if a < b then true
    else if b < a then false
    else unitListLe as bs

/-- The default `Array.prototype.sort` comparator restricted to
strings: lexicographic on UTF-16 code units. -/
def strLe (a b : String) : Bool := unitListLe (utf16 a.data) (utf16 b.data)

/-- `strLe` as a relation, for use with `List.insertionSort`. -/
def strLeRel (a b : String) : Prop := strLe a b = true

instance : DecidableRel strLeRel := by
  intro a b; unfold strLeRel; infer_instance

instance : IsTotal String strLeRel where
  total := by
    intro a b
    unfold strLeRel strLe
    generalize utf16 a.data = xs
    generalize utf16 b.data = ys
    induction xs generalizing ys with
    | nil => left; rfl
    | cons x xs ih =>
      cases ys with
      | nil => right; rfl
      | cons y ys =>
        by_cases h1 : x < y
        · left; simp [unitListLe, h1]
        · by_cases h2 : y < x
          · right; simp [unitListLe, h1, h2]
          · rcases ih ys with h | h
            · left; simp [unitListLe, h1, h2, h]
            · right; simp [unitListLe, h1, h2, h]

instance : IsTrans String strLeRel where
  trans := by
    intro a b c
    unfold strLeRel strLe
    generalize utf16 a.data = xs
    generalize utf16 b.data = ys
    generalize utf16 c.data = zs
    induction xs generalizing ys zs with
    | nil => intro _ _; rfl
    | cons x xs ih =>
      cases ys with
      | nil => intro hab; exact absurd hab (by simp [unitListLe])
      | cons y ys =>
        cases zs with
        | nil => intro _ hbc; exact absurd hbc (by simp [unitListLe])
        | cons z zs =>
          intro hab hbc
          simp only [unitListLe] at hab hbc ⊢
          by_cases hxy : x < y
          · by_cases hyz : y < z
            · simp [show x < z by omega]
            · by_cases hzy : z < y
              · rw [if_neg hyz, if_pos hzy] at hbc
                exact absurd hbc (by simp)
              · simp [show x < z by omega]
          · by_cases hyx : y < x
            · rw [if_neg hxy, if_pos hyx] at hab
              exact absurd hab (by simp)
            · rw [if_neg hxy, if_neg hyx] at hab
              by_cases hyz : y < z
              · simp [show x < z by omega]
              · by_cases hzy : z < y
                · rw [if_neg hyz, if_pos hzy] at hbc
                  exact absurd hbc (by simp)
                · rw [if_neg hyz, if_neg hzy] at hbc
                  rw [if_neg (show ¬x < z by omega),
                    if_neg (show ¬z < x by omega)]
                  exact ih ys zs hab hbc

/-- The key order a `sortObjectKeys` output enumerates in: array-index
keys ascending numerically, before all other keys, which follow in
UTF-16 code-unit order. -/
def jsKeyLeB (a b : String) : Bool :=
  match isArrayIndex a, isArrayIndex b with
  | true, true => decVal a.data ≤ decVal b.data
  | true, false => true
  | false, true => false
  | false, false => strLe a b

/-- `jsKeyLeB` as a relation. -/
def jsKeyRel (a b : String) : Prop := jsKeyLeB a b = true

instance : DecidableRel jsKeyRel := by
  intro a b; unfold jsKeyRel; infer_instance

/-- `sortObjectKeys`: `Object.keys(obj).sort()` (default comparator:
UTF-16 code-unit lexicographic), then rebuild by property creation in
sorted order — the rebuilt object still enumerates array-index keys
first.  `obj[key]` is defined for every listed key, so the `filterMap`
keeps every key. -/
def sortObjectKeys {α : Type} (o : JsObj α) : JsObj α :=
  (List.insertionSort strLeRel (JsObj.keys o)).filterMap
    (fun k => (JsObj.get o k).map (fun v => (k, v)))

/-- `getPackageDetails` result: `dependencies` / `devDependencies` of a
parsed `package.json`, either possibly absent. -/
structure PackageDetails where
  dependencies : Option (JsObj String)
  devDependencies : Option (JsObj String)
deriving DecidableEq, Repr

/-- The two aggregated maps returned by `fetchAggregatedData`. -/
structure AggregatedData where
  dependencies : JsObj String
  devDependencies : JsObj String
deriving DecidableEq, Repr

/-- The repository loop of `fetchAggregatedData`: thread `aggregated`
and `tempData` through `aggregateVersion` for each repository with a
readable `package.json` (a `null` from `getPackageDetails` is
skipped). -/
def aggLoop : List (Option PackageDetails) →
    JsObj String × JsObj String × JsObj VersionData × JsObj VersionData →
    String →
    Except String (JsObj String × JsObj String × JsObj VersionData × JsObj VersionData)
  | [], st, _ => .ok st
  | none :: rest, st, vt => aggLoop rest st vt
  | some pd :: rest, (aggD, aggDD, tdD, tdDD), vt =>
    match aggregateVersion aggD pd.dependencies vt tdD with
    | .error e => .error e
    | .ok (aggD', tdD') =>
      match aggregateVersion aggDD pd.devDependencies vt tdDD with
      | .error e => .error e
      | .ok (aggDD', tdDD') => aggLoop rest (aggD', aggDD', tdD', tdDD') vt

/-- `fetchAggregatedData` on a cache miss, with the repository fetch
and `getPackageDetails` results supplied as input: run the loop from
empty state, sort both maps; the surrounding `try`/`catch` turns the
`TypeError` escape into an `undefined` return, modelled as `none`. -/
def fetchAggregatedDataCore (repos : List (Option PackageDetails))
    (versionType : String) : Option AggregatedData :=
  match aggLoop repos ([], [], [], []) versionType with
  | .error _ => none
  | .ok (aggD, aggDD, _, _) =>
      some ⟨sortObjectKeys aggD, sortObjectKeys aggDD⟩

/-! ## `fetchDeploymentLinks` (the deployment matcher) -/

/-- One platform site entry as far as the matcher reads it.  `none`
collapses JS `null`/`undefined` (both falsy, both "absent key"). -/
structure Site where
  name : String
  url : String
  ssl_url : Option String
  repo : Option String
  framework : Option String
deriving DecidableEq, Repr

/-- A matched deployment as built inside `fetchDeploymentLinks`;
`framework` is populated only by the Vercel branch. -/
structure DeployMatch where
  name : String
  url : String
  repo : String
  framework : Option String
deriving DecidableEq, Repr

/-- JS truthiness of an optional string (`null`/`undefined`/`""` are
falsy). -/
def strTruthy (o : Option String) : Bool :=
  match o with
  | none => false
  | some s => s ≠ ""

/-- JS `a || b` on an optional string against a string default. -/
def jsOrStr (a : Option String) (b : String) : String :=
  match a with
  | some s => if s = "" then b else s
  | none => b

/-- The Netlify match payload: `{ name, url: ssl_url || url, repo }`. -/
def mkNetlify (s : Site) : DeployMatch :=
  ⟨s.name, jsOrStr s.ssl_url s.url, s.repo.getD "", none⟩

/-- The Vercel match payload: `{ name, url, repo, framework }`. -/
def mkVercel (s : Site) : DeployMatch :=
  ⟨s.name, s.url, s.repo.getD "", s.framework⟩

/-- The Render match payload: `{ name, url, repo }`. -/
def mkRender (s : Site) : DeployMatch :=
  ⟨s.name, s.url, s.repo.getD "", none⟩

/-- One platform loop of `fetchDeploymentLinks`: skip entries with a
falsy `repo`, parse the rest, commit to the first entry whose parsed
`(owner, name)` equals the target, and `break`. -/
def matchSites (repoOwner repoName : String) (mk : Site → DeployMatch) :
    List Site → Option DeployMatch
  | [] => none
  | s :: rest =>
    match s.repo with
    | none => matchSites repoOwner repoName mk rest
    | some r =>
      if r = "" then matchSites repoOwner repoName mk rest
      else
        match parseRepoUrl (.str r) with
        | none => matchSites repoOwner repoName mk rest
        | some p =>
          if p.owner = repoOwner && p.name = repoName then some (mk s)
          else matchSites repoOwner repoName mk rest

/-- The `deployments` record of `fetchDeploymentLinks`. -/
structure DeploymentLinks where
  netlify : Option DeployMatch
  vercel : Option DeployMatch
  render : Option DeployMatch
deriving DecidableEq, Repr

/-- The three platform loops. -/
def deploymentsOf (repoOwner repoName : String)
    (netlifySites vercelSites renderSites : List Site) : DeploymentLinks :=
  ⟨matchSites repoOwner repoName mkNetlify netlifySites,
   matchSites repoOwner repoName mkVercel vercelSites,
   matchSites repoOwner repoName mkRender renderSites⟩

/-- `fetchDeploymentLinks` after the (cached) platform fetch, which
always stores three arrays: run the three loops, then return the
record only when at least one slot matched, `null` otherwise. -/
def fetchDeploymentLinksCore (repoOwner repoName : String)
    (netlifySites vercelSites renderSites : List Site) :
    Option DeploymentLinks :=
  let d := deploymentsOf repoOwner repoName netlifySites vercelSites renderSites
  if d.netlify.isSome || d.vercel.isSome || d.render.isSome then some d
  else none

/-- Specification-side predicate: the entries the matcher may select —
truthy `repo` parsing exactly (case-sensitively) to the target. -/
def isDeployMatch (repoOwner repoName : String) (s : Site) : Bool :=
  strTruthy s.repo &&
    parseRepoUrl (.str (s.repo.getD "")) = some ⟨repoOwner, repoName⟩

/-! ## JS values and the enhanced-repository assembler -/

/-- A JSON-ish JS value; `nullv` collapses `null` and `undefined`
(which the inspected code distinguishes nowhere). -/
inductive JSV where
  | nullv : JSV
  | bool : Bool → JSV
  | num : Int → JSV
  | str : String → JSV
  | arr : List JSV → JSV
  | obj : List (String × JSV) → JSV
deriving Repr, BEq

/-- JS truthiness of a `JSV`. -/
def jsTruthy (v : JSV) : Bool :=
  match v with
  | .nullv => false
  | .bool b => b
  | .num n => n ≠ 0
  | .str s => s ≠ ""
  | .arr _ => true
  | .obj _ => true

/-- Property read `v.k` where `v` is known non-nullish: a missing key
or a primitive receiver yields `undefined` (collapsed to `nullv`). -/
def jsGet (v : JSV) (k : String) : JSV :=
  match v with
  | .obj fields => (lookupField fields k).getD .nullv
  | _ => .nullv
where
  lookupField : List (String × JSV) → String → Option JSV
    | [], _ => none
    | (k', v') :: rest, k => if k' = k then some v' else lookupField rest k

/-- Property read `v.k` that models the JS `TypeError` on a nullish
receiver. -/
def jsGetE (v : JSV) (k : String) : Except String JSV :=
  match v with
  | .nullv => .error "TypeError: cannot read properties of null/undefined"
  | _ => .ok (jsGet v k)

/-- One HTTP response as `node-fetch` delivers it to `fetchGitHubAPI`:
a status plus the result of `response.json()` (which may itself
reject on malformed JSON). -/
structure NetResp where
  status : Nat
  json : Except String JSV

/-- The network boundary: endpoint string to response, or a rejected
promise (transport failure). -/
def NetOracle : Type := String → Except String NetResp

/-- `fetchGitHubAPI`: 403 becomes `null`, 404 returns the error body
so callers can check `data.message`, everything else returns the JSON
body; the `catch` turns any rejection into `null`. -/
def fetchGitHubAPI (net : NetOracle) (endpoint : String) : JSV :=
  match net endpoint with
  | .error _ => .nullv
  | .ok resp =>
    if resp.status = 403 then .nullv
    else
      match resp.json with
      | .error _ => .nullv
      | .ok v => v

/-- `IMAGE_EXTENSIONS` from the config. -/
def imageExtensions : List String :=
  [".jpg", ".jpeg", ".png", ".gif", ".bmp", ".webp", ".svg", ".tiff",
   ".ico", ".pdf"]

/-- `VIDEO_EXTENSIONS` from the config. -/
def videoExtensions : List String :=
  [".mp4", ".avi", ".mov", ".mkv", ".flv", ".webm", ".m4v"]

/-- `hasExtension` (utils/extensions.js): requires a truthy `name`,
`type === "file"`, and a case-insensitive extension match. -/
def hasExtension (data : JSV) (exts : List String) : Bool :=
  if !(jsTruthy data && jsTruthy (jsGet data "name")) then false
  else
    jsGet data "type" == .str "file" &&
      exts.any (fun ext =>
        match jsGet data "name" with
        | .str s => s.toLower.endsWith ext
        | _ => false)

/-- `isImage`. -/
def isImage (data : JSV) : Bool := hasExtension data imageExtensions

/-- `isVideo`. -/
def isVideo (data : JSV) : Bool := hasExtension data videoExtensions

/-- `isOtherBinary`: `type === "file" && size > 1000000`. -/
def isOtherBinary (data : JSV) : Bool :=
  jsGet data "type" == .str "file" &&
    (match jsGet data "size" with
     | .num n => 1000000 < n
     | _ => false)

/-- `fetchFileContent` (the variant used by `fetchReadme`): `null` on
an upstream error body, a blob link for binaries or when
`alwaysProvideLink`, the base64-decoded `content` otherwise, `null`
when no `content`; `b64` stands for
`Buffer.from(-, "base64").toString("utf-8")`. -/
def fetchFileContent (net : NetOracle) (b64 : String → String)
    (repoOwner repoName filePath : String) (alwaysProvideLink : Bool) : JSV :=
  let data := fetchGitHubAPI net
    ("/repos/" ++ repoOwner ++ "/" ++ repoName ++ "/contents/" ++ filePath)
  if jsTruthy data && jsTruthy (jsGet data "message") then .nullv
  else if alwaysProvideLink ||
      (jsTruthy data && (isImage data || isVideo data || isOtherBinary data)) then
    .str ("https://github.com/" ++ repoOwner ++ "/" ++ repoName ++
      "/blob/main/" ++ filePath)
  else if jsTruthy data && jsTruthy (jsGet data "content") then
    match jsGet data "content" with
    | .str s => .str (b64 s)
    | _ => .nullv
  else .nullv

/-- The README filenames probed by `fetchReadme`, in order. -/
def readmeFiles : List String :=
  ["README.md", "README.txt", "README", "readme.md", "readme.txt", "readme"]

/-- `fetchReadme`: first probed file whose content is a nonempty
string not starting with `"http"` (a blob link is skipped), else
`null`. -/
def fetchReadme (net : NetOracle) (b64 : String → String)
    (repoOwner repoName : String) : JSV :=
  go readmeFiles
where
  go : List String → JSV
    | [] => .nullv
    | f :: rest =>
      match fetchFileContent net b64 repoOwner repoName f false with
      | .str s =>
          if s ≠ "" && !(s.startsWith "http") then .str s else go rest
      | _ => go rest

/-- JS `a || b` on JS values (used for `repoData.topics || []`). -/
def jsOr (a b : JSV) : JSV := if jsTruthy a then a else b

/-- The `include*` options of `fetchEnhancedRepositoryData`
(each defaults to `true` when omitted). -/
structure IncludeOptions where
  includeReadme : Bool := true
  includeLanguages : Bool := true
  includeStats : Bool := true
  includeReleases : Bool := true
  includeWorkflows : Bool := true
  includeCICD : Bool := true
  includeDeployments : Bool := true
  includeNpm : Bool := true
  includeDeploymentLinks : Bool := true
deriving Repr

/-- Settled results of the sub-resource fetchers other than the
README.  Each fetcher catches its own failures and resolves with
`null` in that case, so a plain value per fetcher is its full
behaviour at this boundary. -/
structure SubResults where
  languages : JSV
  commitActivity : JSV
  contributors : JSV
  codeFrequency : JSV
  participation : JSV
  releases : JSV
  workflows : JSV
  workflowRuns : JSV
  cicdStatus : JSV
  deployments : JSV
  npmInfo : JSV
  deploymentLinks : JSV

/-- `fetchEnhancedRepositoryData`: fetch the base metadata first and
return `null` (`Except.ok none`) when it is falsy or carries an error
`message`; otherwise build the base record, then merge one object per
enabled option in promise-array order (`Object.assign`, fresh keys).
The unguarded `repoData.owner.<field>` accesses are the only places
the function itself can raise. -/
def fetchEnhancedRepositoryData (net : NetOracle) (b64 : String → String)
    (subs : SubResults) (repoName repoOwner : String)
    (opts : IncludeOptions) : Except String (Option (JsObj JSV)) :=
  let repoData := fetchGitHubAPI net ("/repos/" ++ repoOwner ++ "/" ++ repoName)
  if !jsTruthy repoData || jsTruthy (jsGet repoData "message") then .ok none
  else do
    let ownerObj := jsGet repoData "owner"
    let ownerLogin ← jsGetE ownerObj "login"
    let ownerAvatar ← jsGetE ownerObj "avatar_url"
    let ownerHtml ← jsGetE ownerObj "html_url"
    let lic := jsGet repoData "license"
    let base : JsObj JSV :=
      [("name", jsGet repoData "name"),
       ("full_name", jsGet repoData "full_name"),
       ("description", jsGet repoData "description"),
       ("html_url", jsGet repoData "html_url"),
       ("homepage", jsGet repoData "homepage"),
       ("language", jsGet repoData "language"),
       ("default_branch", jsGet repoData "default_branch"),
       ("stars", jsGet repoData "stargazers_count"),
       ("forks", jsGet repoData "forks_count"),
       ("watchers", jsGet repoData "watchers_count"),
       ("open_issues", jsGet repoData "open_issues_count"),
       ("size", jsGet repoData "size"),
       ("created_at", jsGet repoData "created_at"),
       ("updated_at", jsGet repoData "updated_at"),
       ("pushed_at", jsGet repoData "pushed_at"),
       ("topics", jsOr (jsGet repoData "topics") (.arr [])),
       ("license",
         if jsTruthy lic then
           .obj [("key", jsGet lic "key"), ("name", jsGet lic "name"),
                 ("spdx_id", jsGet lic "spdx_id"), ("url", jsGet lic "url")]
         else .nullv),
       ("archived", jsGet repoData "archived"),
       ("disabled", jsGet repoData "disabled"),
       ("private", jsGet repoData "private"),
       ("fork", jsGet repoData "fork"),
       ("has_pages", jsGet repoData "has_pages"),
       ("pages_url",
         if jsTruthy (jsGet repoData "has_pages") then
           .str ("https://" ++ repoOwner ++ ".github.io/" ++ repoName)
         else .nullv),
       ("owner", .obj [("login", ownerLogin), ("avatar_url", ownerAvatar),
                       ("html_url", ownerHtml)]),
       ("deployments_url", jsGet repoData "deployments_url"),
       ("releases_url", jsGet repoData "releases_url"),
       ("issues_url", jsGet repoData "issues_url"),
       ("pulls_url", jsGet repoData "pulls_url")]
    let d0 := base
    let d1 := if opts.includeReadme then
        JsObj.set d0 "readme" (fetchReadme net b64 repoOwner repoName)
      else d0
    let d2 := if opts.includeLanguages then
        JsObj.set d1 "languages" subs.languages
      else d1
    let d3 := if opts.includeStats then
        JsObj.set d2 "stats"
          (.obj [("commit_activity", subs.commitActivity),
                 ("contributors", subs.contributors),
                 ("code_frequency", subs.codeFrequency),
                 ("participation", subs.participation)])
      else d2
    let d4 := if opts.includeReleases then
        JsObj.set d3 "releases" subs.releases
      else d3
    let d5 := if opts.includeWorkflows then
        JsObj.set (JsObj.set d4 "workflows" subs.workflows)
          "workflow_runs" subs.workflowRuns
      else d4
    let d6 := if opts.includeCICD then
        JsObj.set d5 "cicd_status" subs.cicdStatus
      else d5
    let d7 := if opts.includeDeployments then
        JsObj.set d6 "deployments" subs.deployments
      else d6
    let d8 := if opts.includeNpm then
        JsObj.set d7 "npm" subs.npmInfo
      else d7
    let d9 := if opts.includeDeploymentLinks then
        JsObj.set d8 "deployment_links" subs.deploymentLinks
      else d8
    return some d9

/-! ## Test fixtures -/

/-- A Netlify site entry whose `repo` parses to `(x, y)`. -/
def siteXY : Site :=
  ⟨"xy-site", "https://xy.example.app", none, some "https://github.com/x/y", none⟩

namespace Rex

/-- `out` is the head outcome of `mtch` — the alternative a JS
backtracking engine commits to. -/
def Heads (r : RE) (p : Nat) (cs : List Char) (caps : Caps) (out : MRes) : Prop :=
  ∃ t, mtch r p cs caps = out :: t

/-- Every capture group of the regex wraps a bare `+`-quantified
character class (true of all three `parseRepoUrl` regexes). -/
def goodG : RE → Prop
  | .bol => True
  | .eos => True
  | .lit _ => True
  | .one _ => True
  | .plus _ => True
  | .rep _ _ _ => True
  | .opt r => goodG r
  | .alt a b => goodG a ∧ goodG b
  | .cat a b => goodG a ∧ goodG b
  | .grp _ r => ∃ f, r = RE.plus f

/-- Capture slot `i` participates in every successful match of the
regex. -/
def setsG (i : Nat) : RE → Prop
  | .bol => False
  | .eos => False
  | .lit _ => False
  | .one _ => False
  | .plus _ => False
  | .rep _ _ _ => False
  | .opt _ => False
  | .alt a b => setsG i a ∧ setsG i b
  | .cat a b => setsG i a ∨ setsG i b
  | .grp j r => j = i ∨ setsG i r

end Rex


/-- All `include*` options left at their defaults (`true`). -/
def allOptions : IncludeOptions := {}

/-- Witness network oracle: the base metadata fetch succeeds with a
minimal repository object; every other endpoint rejects. -/
def witnessNet : NetOracle := fun path =>
  if path = "/repos/alice/site" then
    .ok ⟨200, .ok (JSV.obj [("name", .str "site"),
      ("owner", .obj [("login", .str "alice")])])⟩
  else .error "boom"

/-- Witness sub-resource results. -/
def witnessSubs : SubResults :=
  ⟨.str "L", .str "ca", .str "co", .str "cf", .str "pa", .str "re",
   .str "wf", .str "wr", .str "ci", .str "de", .str "np", .str "dl"⟩


/-- The assembled record of `fetchEnhancedRepositoryData` with every
option enabled and the `owner` accesses already resolved: the base
record followed by the ten sub-resource `Object.assign` merges in
promise-array order. -/
def fullAssembly (net : NetOracle) (b64 : String → String)
    (subs : SubResults) (repoName repoOwner : String) : JsObj JSV :=
  let repoData := fetchGitHubAPI net ("/repos/" ++ repoOwner ++ "/" ++ repoName)
  let ownerObj := jsGet repoData "owner"
  let lic := jsGet repoData "license"
  let base : JsObj JSV :=
    [("name", jsGet repoData "name"),
     ("full_name", jsGet repoData "full_name"),
     ("description", jsGet repoData "description"),
     ("html_url", jsGet repoData "html_url"),
     ("homepage", jsGet repoData "homepage"),
     ("language", jsGet repoData "language"),
     ("default_branch", jsGet repoData "default_branch"),
     ("stars", jsGet repoData "stargazers_count"),
     ("forks", jsGet repoData "forks_count"),
     ("watchers", jsGet repoData "watchers_count"),
     ("open_issues", jsGet repoData "open_issues_count"),
     ("size", jsGet repoData "size"),
     ("created_at", jsGet repoData "created_at"),
     ("updated_at", jsGet repoData "updated_at"),
     ("pushed_at", jsGet repoData "pushed_at"),
     ("topics", jsOr (jsGet repoData "topics") (.arr [])),
     ("license",
       if jsTruthy lic then
         .obj [("key", jsGet lic "key"), ("name", jsGet lic "name"),
               ("spdx_id", jsGet lic "spdx_id"), ("url", jsGet lic "url")]
       else .nullv),
     ("archived", jsGet repoData "archived"),
     ("disabled", jsGet repoData "disabled"),
     ("private", jsGet repoData "private"),
     ("fork", jsGet repoData "fork"),
     ("has_pages", jsGet repoData "has_pages"),
     ("pages_url",
       if jsTruthy (jsGet repoData "has_pages") then
         .str ("https://" ++ repoOwner ++ ".github.io/" ++ repoName)
       else .nullv),
     ("owner", .obj [("login", jsGet ownerObj "login"),
                     ("avatar_url", jsGet ownerObj "avatar_url"),
                     ("html_url", jsGet ownerObj "html_url")]),
     ("deployments_url", jsGet repoData "deployments_url"),
     ("releases_url", jsGet repoData "releases_url"),
     ("issues_url", jsGet repoData "issues_url"),
     ("pulls_url", jsGet repoData "pulls_url")]
  JsObj.set (JsObj.set (JsObj.set (JsObj.set (JsObj.set (JsObj.set
    (JsObj.set (JsObj.set (JsObj.set (JsObj.set base
      "readme" (fetchReadme net b64 repoOwner repoName))
      "languages" subs.languages)
      "stats" (.obj [("commit_activity", subs.commitActivity),
                     ("contributors", subs.contributors),
                     ("code_frequency", subs.codeFrequency),
                     ("participation", subs.participation)]))
      "releases" subs.releases)
      "workflows" subs.workflows)
      "workflow_runs" subs.workflowRuns)
      "cicd_status" subs.cicdStatus)
      "deployments" subs.deployments)
      "npm" subs.npmInfo)
      "deployment_links" subs.deploymentLinks

/-! # Theorems -/

namespace Rex

/-- `takeWhile` stops exactly at the end of an all-satisfying prefix
whose continuation starts with a failing character (or is empty). -/
theorem takeWhile_append_all {f : Char → Bool} {xs rest : List Char}
    (hall : ∀ c ∈ xs, f c = true)
    (hstop : ∀ d, rest.head? = some d → f d = false) :
    (xs ++ rest).takeWhile f = xs := by
  induction xs with
  | nil =>
    cases rest with
    | nil => rfl
    | cons d ds => simp [List.takeWhile_cons, hstop d rfl]
  | cons x xs ih =>
    have hx : f x = true := hall x (by simp)
    simp only [List.cons_append, List.takeWhile_cons, hx, if_true]
    rw [ih (fun c hc => hall c (by simp [hc]))]

theorem heads_lit {s cs : List Char} (h : s.isPrefixOf cs = true)
    (p : Nat) (caps : Caps) :
    Heads (.lit s) p cs caps ⟨p + s.length, cs.drop s.length, caps⟩ :=
  ⟨[], by simp [mtch, h]⟩

theorem heads_one {f : Char → Bool} {c : Char} (h : f c = true)
    (p : Nat) (rest : List Char) (caps : Caps) :
    Heads (.one f) p (c :: rest) caps ⟨p + 1, rest, caps⟩ :=
  ⟨[], by simp [mtch, h]⟩

theorem heads_plus {f : Char → Bool} {xs rest : List Char}
    (hall : ∀ c ∈ xs, f c = true) (hne : xs ≠ [])
    (hstop : ∀ d, rest.head? = some d → f d = false)
    (p : Nat) (caps : Caps) :
    Heads (.plus f) p (xs ++ rest) caps ⟨p + xs.length, rest, caps⟩ := by
  have ht := takeWhile_append_all hall hstop
  obtain ⟨m, hm⟩ : ∃ m, xs.length = m + 1 := by
    cases xs with
    | nil => exact absurd rfl hne
    | cons a l => exact ⟨l.length, by simp⟩
  refine ⟨(downFrom m).map (fun k => ⟨p + k, (xs ++ rest).drop k, caps⟩), ?_⟩
  simp only [mtch, ht, hm, downFrom, List.map_cons]
  rw [← hm, List.drop_left]

theorem heads_opt_match {r : RE} {p : Nat} {cs : List Char} {caps : Caps}
    {out : MRes} (h : Heads r p cs caps out) :
    Heads (.opt r) p cs caps out := by
  obtain ⟨t, ht⟩ := h
  exact ⟨t ++ [⟨p, cs, caps⟩], by simp [mtch, ht]⟩

theorem heads_opt_skip {r : RE} {p : Nat} {cs : List Char} {caps : Caps}
    (h : mtch r p cs caps = []) :
    Heads (.opt r) p cs caps ⟨p, cs, caps⟩ :=
  ⟨[], by simp [mtch, h]⟩

theorem heads_alt_right {a b : RE} {p : Nat} {cs : List Char} {caps : Caps}
    {out : MRes} (ha : mtch a p cs caps = []) (h : Heads b p cs caps out) :
    Heads (.alt a b) p cs caps out := by
  obtain ⟨t, ht⟩ := h
  exact ⟨t, by simp [mtch, ha, ht]⟩

theorem heads_cat {a b : RE} {p : Nat} {cs : List Char} {caps : Caps}
    {m out : MRes} (ha : Heads a p cs caps m)
    (hb : Heads b m.pos m.rest m.caps out) :
    Heads (.cat a b) p cs caps out := by
  obtain ⟨t1, h1⟩ := ha
  obtain ⟨t2, h2⟩ := hb
  refine ⟨t2 ++ t1.flatMap (fun x => mtch b x.pos x.rest x.caps), ?_⟩
  simp [mtch, h1, h2]

theorem heads_grp {i : Nat} {r : RE} {p : Nat} {cs : List Char}
    {caps : Caps} {m : MRes} (h : Heads r p cs caps m) :
    Heads (.grp i r) p cs caps
      ⟨m.pos, m.rest, m.caps.set i (cs.take (m.pos - p))⟩ := by
  obtain ⟨t, ht⟩ := h
  exact ⟨t.map (fun x => ⟨x.pos, x.rest, x.caps.set i (cs.take (x.pos - p))⟩),
    by simp [mtch, ht]⟩

/-- A committed head outcome at the scan start determines the result
of `search`. -/
theorem search_of_heads {r : RE} {cs : List Char} {out : MRes}
    (h : Heads r 0 cs Caps.empty out) :
    Rex.search r cs = some out.caps := by
  obtain ⟨t, ht⟩ := h
  unfold Rex.search
  cases cs with
  | nil => rw [searchFrom, ht]
  | cons c rest => rw [searchFrom, ht]

/-- A failed attempt at the current start position moves the scan one
character to the right. -/
theorem searchFrom_step {r : RE} {p : Nat} {c : Char} {rest : List Char}
    (h : mtch r p (c :: rest) Caps.empty = []) :
    searchFrom r p (c :: rest) = searchFrom r (p + 1) rest := by
  rw [searchFrom, h]

end Rex

/-- Unrolling `matchSites` one entry at a time: the loop body commits
exactly when `isDeployMatch` holds. -/
theorem matchSites_cons (o n : String) (mk : Site → DeployMatch)
    (s : Site) (rest : List Site) :
    matchSites o n mk (s :: rest) =
      if isDeployMatch o n s then some (mk s) else matchSites o n mk rest := by
  obtain ⟨sn, su, ssl, srep, sfw⟩ := s
  cases srep with
  | none => simp [matchSites, isDeployMatch, strTruthy]
  | some r =>
    by_cases hre : r = ""
    · subst hre; simp [matchSites, isDeployMatch, strTruthy]
    · cases hp : parseRepoUrl (.str r) with
      | none => simp [matchSites, isDeployMatch, strTruthy, hp, hre]
      | some p =>
        by_cases heq : p = RepoRef.mk o n
        · subst heq; simp [matchSites, isDeployMatch, strTruthy, hp, hre]
        · have hb : ¬(p.owner = o ∧ p.name = n) := by
            rintro ⟨h1, h2⟩; apply heq; cases p; simp_all
          simp [matchSites, isDeployMatch, strTruthy, hp, hre, heq, hb]

/-- The platform loop is `List.find?` of `isDeployMatch` pushed
through the payload builder. -/
theorem matchSites_eq_find (o n : String) (mk : Site → DeployMatch)
    (sites : List Site) :
    matchSites o n mk sites = (sites.find? (isDeployMatch o n)).map mk := by
  induction sites with
  | nil => rfl
  | cons s rest ih =>
    rw [matchSites_cons, List.find?_cons]
    by_cases h : isDeployMatch o n s
    · simp [h]
    · simp only [Bool.not_eq_true] at h
      simp [h, ih]

/-- A platform slot is non-null exactly when some entry of its list
matches. -/
theorem matchSites_isSome_iff (o n : String) (mk : Site → DeployMatch)
    (sites : List Site) :
    (matchSites o n mk sites).isSome = true ↔
      0 < sites.countP (isDeployMatch o n) := by
  rw [matchSites_eq_find]
  simp [List.find?_isSome, List.countP_pos_iff]

/-- C1: deployment matching is first-match-wins per platform — each
platform slot is `find?` of "truthy `repo` parsing case-sensitively to
the target" mapped through that platform's payload builder — and when
exactly one entry across the three platform lists matches, exactly one
slot of the result is non-null. -/
theorem deployment_firstMatch_exclusive (o n : String)
    (nl vl rl : List Site) :
    ((deploymentsOf o n nl vl rl).netlify =
        (nl.find? (isDeployMatch o n)).map mkNetlify ∧
     (deploymentsOf o n nl vl rl).vercel =
        (vl.find? (isDeployMatch o n)).map mkVercel ∧
     (deploymentsOf o n nl vl rl).render =
        (rl.find? (isDeployMatch o n)).map mkRender) ∧
    (nl.countP (isDeployMatch o n) + vl.countP (isDeployMatch o n) +
        rl.countP (isDeployMatch o n) = 1 →
      (deploymentsOf o n nl vl rl).netlify.isSome.toNat +
        (deploymentsOf o n nl vl rl).vercel.isSome.toNat +
        (deploymentsOf o n nl vl rl).render.isSome.toNat = 1) := by
  refine ⟨⟨matchSites_eq_find o n mkNetlify nl, matchSites_eq_find o n mkVercel vl,
    matchSites_eq_find o n mkRender rl⟩, ?_⟩
  intro hsum
  have h1 := matchSites_isSome_iff o n mkNetlify nl
  have h2 := matchSites_isSome_iff o n mkVercel vl
  have h3 := matchSites_isSome_iff o n mkRender rl
  simp only [deploymentsOf]
  rcases Nat.lt_or_ge 0 (nl.countP (isDeployMatch o n)) with hc1 | hc1
  · have e1 : (matchSites o n mkNetlify nl).isSome = true := h1.mpr hc1
    have hc2 : vl.countP (isDeployMatch o n) = 0 := by omega
    have hc3 : rl.countP (isDeployMatch o n) = 0 := by omega
    have e2 : (matchSites o n mkVercel vl).isSome = false := by
      rw [Bool.eq_false_iff]; intro h; have := h2.mp h; omega
    have e3 : (matchSites o n mkRender rl).isSome = false := by
      rw [Bool.eq_false_iff]; intro h; have := h3.mp h; omega
    rw [e1, e2, e3]; rfl
  · rcases Nat.lt_or_ge 0 (vl.countP (isDeployMatch o n)) with hc2 | hc2
    · have e2 : (matchSites o n mkVercel vl).isSome = true := h2.mpr hc2
      have e1 : (matchSites o n mkNetlify nl).isSome = false := by
        rw [Bool.eq_false_iff]; intro h; have := h1.mp h; omega
      have e3 : (matchSites o n mkRender rl).isSome = false := by
        rw [Bool.eq_false_iff]; intro h; have := h3.mp h; omega
      rw [e1, e2, e3]; rfl
    · have hc3 : 0 < rl.countP (isDeployMatch o n) := by omega
      have e3 : (matchSites o n mkRender rl).isSome = true := h3.mpr hc3
      have e1 : (matchSites o n mkNetlify nl).isSome = false := by
        rw [Bool.eq_false_iff]; intro h; have := h1.mp h; omega
      have e2 : (matchSites o n mkVercel vl).isSome = false := by
        rw [Bool.eq_false_iff]; intro h; have := h2.mp h; omega
      rw [e1, e2, e3]; rfl

/-- C1 witness: a single matching Netlify entry and empty Vercel and
Render lists give exactly one non-null slot. -/
theorem deployment_firstMatch_exclusive_witness :
    (deploymentsOf "x" "y" [siteXY] [] []).netlify.isSome.toNat +
      (deploymentsOf "x" "y" [siteXY] [] []).vercel.isSome.toNat +
      (deploymentsOf "x" "y" [siteXY] [] []).render.isSome.toNat = 1 :=
  (deployment_firstMatch_exclusive "x" "y" [siteXY] [] []).2 (by decide)

/-- C3: the four positive literal repository references all parse to
`(acme, widgets)`, and the three degenerate inputs parse to `null`. -/
theorem parseRepoUrl_literals :
    parseRepoUrl (.str "https://github.com/acme/widgets") =
      some ⟨"acme", "widgets"⟩ ∧
    parseRepoUrl (.str "https://github.com/acme/widgets.git") =
      some ⟨"acme", "widgets"⟩ ∧
    parseRepoUrl (.str "git@github.com:acme/widgets.git") =
      some ⟨"acme", "widgets"⟩ ∧
    parseRepoUrl (.str "acme/widgets") = some ⟨"acme", "widgets"⟩ ∧
    parseRepoUrl (.str "not a repo url") = none ∧
    parseRepoUrl (.str "") = none ∧
    parseRepoUrl .nullv = none := by decide

/-- C4: when no entry of any platform list matches the target, the
aggregate result is `null` itself, and whenever at least one slot
matched the three-slot record is returned as-is. -/
theorem deploymentLinks_absence_collapse (o n : String)
    (nl vl rl : List Site) :
    (((∀ s ∈ nl, isDeployMatch o n s = false) ∧
      (∀ s ∈ vl, isDeployMatch o n s = false) ∧
      (∀ s ∈ rl, isDeployMatch o n s = false)) →
      fetchDeploymentLinksCore o n nl vl rl = none) ∧
    ((deploymentsOf o n nl vl rl).netlify.isSome = true ∨
      (deploymentsOf o n nl vl rl).vercel.isSome = true ∨
      (deploymentsOf o n nl vl rl).render.isSome = true →
      fetchDeploymentLinksCore o n nl vl rl =
        some (deploymentsOf o n nl vl rl)) := by
  constructor
  · rintro ⟨h1, h2, h3⟩
    have f1 : List.find? (isDeployMatch o n) nl = none :=
      List.find?_eq_none.mpr (by intro x hx; simp [h1 x hx])
    have f2 : List.find? (isDeployMatch o n) vl = none :=
      List.find?_eq_none.mpr (by intro x hx; simp [h2 x hx])
    have f3 : List.find? (isDeployMatch o n) rl = none :=
      List.find?_eq_none.mpr (by intro x hx; simp [h3 x hx])
    have e1 : matchSites o n mkNetlify nl = none := by
      rw [matchSites_eq_find, f1]; rfl
    have e2 : matchSites o n mkVercel vl = none := by
      rw [matchSites_eq_find, f2]; rfl
    have e3 : matchSites o n mkRender rl = none := by
      rw [matchSites_eq_find, f3]; rfl
    simp [fetchDeploymentLinksCore, deploymentsOf, e1, e2, e3]
  · intro h
    simp only [fetchDeploymentLinksCore]
    rcases h with h | h | h <;> simp_all [deploymentsOf]

/-- C4 witness: empty platform lists collapse to `null`, and a single
matching entry returns the record. -/
theorem deploymentLinks_absence_collapse_witness :
    fetchDeploymentLinksCore "x" "y" [] [] [] = none ∧
    fetchDeploymentLinksCore "x" "y" [siteXY] [] [] =
      some (deploymentsOf "x" "y" [siteXY] [] []) := by
  constructor
  · exact (deploymentLinks_absence_collapse "x" "y" [] [] []).1
      ⟨by simp, by simp, by simp⟩
  · exact (deploymentLinks_absence_collapse "x" "y" [siteXY] [] []).2
      (Or.inl (by decide))

/-- `filterMap` by a function that only ever returns its argument is a
sublist. -/
theorem filterMap_self_sublist {α : Type} (g : α → Option α)
    (h : ∀ a b, g a = some b → b = a) (l : List α) :
    List.Sublist (l.filterMap g) l := by
  induction l with
  | nil => simp
  | cons a l ih =>
    rw [List.filterMap_cons]
    cases hg : g a with
    | none => exact ih.cons a
    | some b =>
      rw [h a b hg]
      exact ih.cons₂ a

/-- The key list of `sortObjectKeys` is sorted. -/
theorem sortObjectKeys_keys_sorted {α : Type} (o : JsObj α) :
    List.Sorted strLeRel ((sortObjectKeys o).map Prod.fst) := by
  unfold sortObjectKeys
  rw [List.map_filterMap]
  have hform : ∀ k k', ((JsObj.get o k).map (fun v => (k, v))).map Prod.fst =
      some k' → k' = k := by
    intro k k' h
    cases hg : JsObj.get o k with
    | none => rw [hg] at h; simp at h
    | some v => rw [hg] at h; simp at h; exact h.symm
  have hsub := filterMap_self_sublist
    (fun k => ((JsObj.get o k).map (fun v => (k, v))).map Prod.fst)
    (fun a b hab => hform a b hab)
    (List.insertionSort strLeRel (JsObj.keys o))
  have hsorted := List.sorted_insertionSort strLeRel (JsObj.keys o)
  exact List.Pairwise.sublist hsub hsorted

theorem mem_insertionSort {α : Type} (r : α → α → Prop) [DecidableRel r]
    (l : List α) (a : α) : a ∈ List.insertionSort r l ↔ a ∈ l :=
  (List.perm_insertionSort r l).mem_iff

theorem jsKeyRel_of_idx {a b : String} (ha : isArrayIndex a = true)
    (hb : isArrayIndex b = true) (h : numKeyLe a b) : jsKeyRel a b := by
  unfold jsKeyRel jsKeyLeB
  rw [ha, hb]
  exact decide_eq_true h

theorem jsKeyRel_idx_other {a b : String} (ha : isArrayIndex a = true)
    (hb : isArrayIndex b = false) : jsKeyRel a b := by
  unfold jsKeyRel jsKeyLeB
  rw [ha, hb]

theorem jsKeyRel_of_other {a b : String} (ha : isArrayIndex a = false)
    (hb : isArrayIndex b = false) (h : strLeRel a b) : jsKeyRel a b := by
  unfold jsKeyRel jsKeyLeB
  rw [ha, hb]
  exact h

/-- An object whose properties were created in sorted key order
enumerates sorted under the combined array-index-first order. -/
theorem keys_sorted_enum {α : Type} (L : JsObj α)
    (h : List.Sorted strLeRel (L.map Prod.fst)) :
    List.Sorted jsKeyRel (JsObj.keys L) := by
  simp only [JsObj.keys]
  refine List.pairwise_append.mpr ⟨?_, ?_, ?_⟩
  · have hs := List.sorted_insertionSort numKeyLe
      ((L.map Prod.fst).filter isArrayIndex)
    refine List.Pairwise.imp_of_mem ?_ hs
    intro a b hma hmb hr
    have ha : isArrayIndex a = true :=
      (List.mem_filter.mp ((mem_insertionSort _ _ a).mp hma)).2
    have hb : isArrayIndex b = true :=
      (List.mem_filter.mp ((mem_insertionSort _ _ b).mp hmb)).2
    exact jsKeyRel_of_idx ha hb hr
  · have hf : List.Sorted strLeRel ((L.map Prod.fst).filter
        (fun k => !isArrayIndex k)) := List.Pairwise.filter _ h
    refine List.Pairwise.imp_of_mem ?_ hf
    intro a b hma hmb hr
    have ha := (List.mem_filter.mp hma).2
    have hb := (List.mem_filter.mp hmb).2
    exact jsKeyRel_of_other (by simpa using ha) (by simpa using hb) hr
  · intro a hma b hmb
    have ha : isArrayIndex a = true :=
      (List.mem_filter.mp ((mem_insertionSort _ _ a).mp hma)).2
    have hb := (List.mem_filter.mp hmb).2
    exact jsKeyRel_idx_other ha (by simpa using hb)

/-- With no array-index key present, enumeration is plain creation
order. -/
theorem keys_eq_of_no_index {α : Type} (L : JsObj α)
    (h : ∀ k ∈ L.map Prod.fst, isArrayIndex k = false) :
    JsObj.keys L = L.map Prod.fst := by
  simp only [JsObj.keys]
  have h1 : (L.map Prod.fst).filter isArrayIndex = [] := by
    rw [List.filter_eq_nil_iff]
    intro a ha
    simp [h a ha]
  have h2 : (L.map Prod.fst).filter (fun k => !isArrayIndex k) =
      L.map Prod.fst := by
    rw [List.filter_eq_self]
    intro a ha
    simp [h a ha]
  rw [h1, h2]
  rfl

/-- C8 counterexample: dependency names that are integer-like.  With
dependencies `10` and `2` the aggregation succeeds, but the output
object's ECMAScript enumeration is `["2", "10"]` — ascending numeric —
which is not lexicographically sorted under the default string
comparator, refuting the universal sorted-keys reading. -/
theorem aggregator_sorted_counterexample :
    ∃ out, fetchAggregatedDataCore
        [some ⟨some [("10", "1.0.0"), ("2", "2.0.0")], none⟩] "max" =
        some out ∧
      JsObj.keys out.dependencies = ["2", "10"] ∧
      ¬ List.Sorted strLeRel (JsObj.keys out.dependencies) :=
  ⟨⟨[("10", "1.0.0"), ("2", "2.0.0")], []⟩, by decide, by decide, by decide⟩

/-- C8 (amended): the aggregator is a pure function — two runs agree
exactly — and `sortObjectKeys` rebuilds each output map with its
properties created in UTF-16-lexicographic key order.  The observable
ECMAScript enumeration of each map is therefore sorted under the
array-index-first key order (integer-like names ascending numerically
before all other names lexicographically), and it is lexicographically
sorted exactly as the spec states whenever no recorded package name is
an integer-like key. -/
theorem aggregator_deterministic_enumSorted
    (repos : List (Option PackageDetails)) (vt : String) :
    fetchAggregatedDataCore repos vt = fetchAggregatedDataCore repos vt ∧
    (∀ out, fetchAggregatedDataCore repos vt = some out →
      (List.Sorted strLeRel (out.dependencies.map Prod.fst) ∧
        List.Sorted strLeRel (out.devDependencies.map Prod.fst)) ∧
      (List.Sorted jsKeyRel (JsObj.keys out.dependencies) ∧
        List.Sorted jsKeyRel (JsObj.keys out.devDependencies)) ∧
      ((∀ k ∈ out.dependencies.map Prod.fst, isArrayIndex k = false) →
        List.Sorted strLeRel (JsObj.keys out.dependencies)) ∧
      ((∀ k ∈ out.devDependencies.map Prod.fst, isArrayIndex k = false) →
        List.Sorted strLeRel (JsObj.keys out.devDependencies))) := by
  refine ⟨rfl, ?_⟩
  intro out h
  unfold fetchAggregatedDataCore at h
  cases hl : aggLoop repos ([], [], [], []) vt with
  | error e => rw [hl] at h; exact absurd h (by simp)
  | ok st =>
    obtain ⟨aggD, aggDD, tdD, tdDD⟩ := st
    rw [hl] at h
    simp only [Option.some.injEq] at h
    subst h
    refine ⟨⟨sortObjectKeys_keys_sorted aggD, sortObjectKeys_keys_sorted aggDD⟩,
      ⟨keys_sorted_enum _ (sortObjectKeys_keys_sorted aggD),
       keys_sorted_enum _ (sortObjectKeys_keys_sorted aggDD)⟩, ?_, ?_⟩
    · intro hno
      rw [keys_eq_of_no_index _ hno]
      exact sortObjectKeys_keys_sorted aggD
    · intro hno
      rw [keys_eq_of_no_index _ hno]
      exact sortObjectKeys_keys_sorted aggDD

/-- C8 witness: the amended theorem applied to an integer-keyed input
(`10`, `2`) and to a plain input presented in reverse order. -/
theorem aggregator_deterministic_enumSorted_witness :
    List.Sorted jsKeyRel (JsObj.keys
      ([("10", "1.0.0"), ("2", "2.0.0")] : JsObj String)) ∧
    List.Sorted strLeRel (JsObj.keys
      ([("a", "2.0.0"), ("b", "1.2.3")] : JsObj String)) := by
  have h1 := (aggregator_deterministic_enumSorted
      [some ⟨some [("10", "1.0.0"), ("2", "2.0.0")], none⟩] "max").2
    ⟨[("10", "1.0.0"), ("2", "2.0.0")], []⟩ (by decide)
  have h2 := (aggregator_deterministic_enumSorted
      [some ⟨some [("b", "1.2.3"), ("a", "2.0.0")], none⟩] "max").2
    ⟨[("a", "2.0.0"), ("b", "1.2.3")], []⟩ (by decide)
  exact ⟨h1.2.1.1, h2.2.2.1 (by decide)⟩

/-! ## Decimal representation lemmas -/

theorem JsObj_get_set_self {α : Type} (o : JsObj α) (k : String) (v : α) :
    JsObj.get (JsObj.set o k v) k = some v := by
  induction o with
  | nil => simp [JsObj.set, JsObj.get]
  | cons kv rest ih =>
    obtain ⟨k1, v1⟩ := kv
    by_cases h : k1 = k
    · subst h
      simp [JsObj.set, JsObj.get]
    · simp [JsObj.set, JsObj.get, h, ih]

theorem JsObj_get_set_ne {α : Type} (o : JsObj α) (k k1 : String) (v : α)
    (h : k1 ≠ k) : JsObj.get (JsObj.set o k v) k1 = JsObj.get o k1 := by
  induction o with
  | nil =>
    have hne : ¬ k = k1 := fun he => h he.symm
    simp [JsObj.set, JsObj.get, hne]
  | cons kv rest ih =>
    obtain ⟨k2, v2⟩ := kv
    by_cases h2 : k2 = k
    · subst h2
      have hne : ¬ k2 = k1 := fun he => h he.symm
      simp [JsObj.set, JsObj.get, hne]
    · by_cases h3 : k2 = k1
      · subst h3
        simp [JsObj.set, JsObj.get, h2]
      · simp [JsObj.set, JsObj.get, h2, h3, ih]

theorem isPrefixOf_append_self (s t : List Char) :
    s.isPrefixOf (s ++ t) = true := by
  induction s with
  | nil => simp [List.isPrefixOf]
  | cons a l ih => simp [List.isPrefixOf, ih]

namespace Rex

/-- Consuming an exposed literal prefix. -/
theorem lit_step (s X : List Char) (p : Nat) (caps : Caps) :
    Heads (.lit s) p (s ++ X) caps ⟨p + s.length, X, caps⟩ := by
  simpa [List.drop_left] using
    heads_lit (isPrefixOf_append_self s X) p caps

/-- The capture tail of the web-URL regex on an exposed `owner/name`
at any position. -/
theorem webRE_tail_heads {o n : List Char} (ho : o ≠ [])
    (ho2 : ∀ c ∈ o, notSlash c = true) (hn : n ≠ [])
    (hn2 : ∀ c ∈ n, notSlashDot c = true) (p : Nat) (caps0 : Caps) :
    Heads (.cat (.grp 1 (.plus notSlash))
        (.cat (.lit ('/' :: []))
          (.cat (.grp 2 (.plus notSlashDot))
            (.opt (.lit ('.' :: 'g' :: 'i' :: 't' :: []))))))
      p (o ++ ('/' :: n)) caps0
      ⟨p + o.length + 1 + n.length, [], (caps0.set 1 o).set 2 n⟩ := by
  have hg1 : Heads (.grp 1 (.plus notSlash)) p (o ++ ('/' :: n)) caps0
      ⟨p + o.length, '/' :: n, caps0.set 1 o⟩ := by
    have h0 := @heads_plus notSlash o ('/' :: n) ho2 ho
      (fun d hd => by
        simp only [List.head?_cons, Option.some.injEq] at hd
        rw [← hd]
        decide) p caps0
    have h1 := heads_grp (i := 1) h0
    simpa [List.take_left] using h1
  have hsl : Heads (.lit ('/' :: [])) (p + o.length) ('/' :: n)
      (caps0.set 1 o) ⟨p + o.length + 1, n, caps0.set 1 o⟩ := by
    simpa using lit_step ('/' :: []) n (p + o.length) (caps0.set 1 o)
  have hg2 : Heads (.grp 2 (.plus notSlashDot)) (p + o.length + 1) n
      (caps0.set 1 o) ⟨p + o.length + 1 + n.length, [],
        (caps0.set 1 o).set 2 n⟩ := by
    have h0 := @heads_plus notSlashDot n [] hn2 hn
      (fun d hd => by simp at hd) (p + o.length + 1) (caps0.set 1 o)
    have h1 := heads_grp (i := 2) h0
    simpa [List.take_length] using h1
  have hgit : Heads (.opt (.lit ('.' :: 'g' :: 'i' :: 't' :: [])))
      (p + o.length + 1 + n.length) [] ((caps0.set 1 o).set 2 n)
      ⟨p + o.length + 1 + n.length, [], (caps0.set 1 o).set 2 n⟩ :=
    heads_opt_skip rfl
  exact heads_cat hg1 (heads_cat hsl (heads_cat hg2 hgit))

/-- The scheme-and-host prefix `https://github.com/` followed by
`owner/name` commits rule 1 at the scan start. -/
theorem webRE_hostPosition_heads {o n : List Char} (ho : o ≠ [])
    (ho2 : ∀ c ∈ o, notSlash c = true) (hn : n ≠ [])
    (hn2 : ∀ c ∈ n, notSlashDot c = true) :
    Heads githubWebRE 0
      (('h' :: 't' :: 't' :: 'p' :: []) ++ (('s' :: []) ++
        ((':' :: '/' :: '/' :: []) ++
          (('g' :: 'i' :: 't' :: 'h' :: 'u' :: 'b' :: '.' :: 'c' :: 'o' :: 'm' :: '/' :: []) ++
            (o ++ ('/' :: n)))))) Caps.empty
      ⟨4 + 1 + 3 + 11 + o.length + 1 + n.length, [],
        (Caps.empty.set 1 o).set 2 n⟩ := by
  have hhttp := lit_step ('h' :: 't' :: 't' :: 'p' :: []) (('s' :: []) ++
    ((':' :: '/' :: '/' :: []) ++
      (('g' :: 'i' :: 't' :: 'h' :: 'u' :: 'b' :: '.' :: 'c' :: 'o' :: 'm' :: '/' :: []) ++
        (o ++ ('/' :: n))))) 0 Caps.empty
  have hs := lit_step ('s' :: []) ((':' :: '/' :: '/' :: []) ++
    (('g' :: 'i' :: 't' :: 'h' :: 'u' :: 'b' :: '.' :: 'c' :: 'o' :: 'm' :: '/' :: []) ++
      (o ++ ('/' :: n)))) (0 + 4) Caps.empty
  have hsep := lit_step (':' :: '/' :: '/' :: [])
    (('g' :: 'i' :: 't' :: 'h' :: 'u' :: 'b' :: '.' :: 'c' :: 'o' :: 'm' :: '/' :: []) ++
      (o ++ ('/' :: n))) (0 + 4 + 1) Caps.empty
  have hscheme : Heads (.opt (.cat (.lit ('h' :: 't' :: 't' :: 'p' :: []))
      (.cat (.opt (.lit ('s' :: []))) (.lit (':' :: '/' :: '/' :: []))))) 0
      (('h' :: 't' :: 't' :: 'p' :: []) ++ (('s' :: []) ++
        ((':' :: '/' :: '/' :: []) ++
          (('g' :: 'i' :: 't' :: 'h' :: 'u' :: 'b' :: '.' :: 'c' :: 'o' :: 'm' :: '/' :: []) ++
            (o ++ ('/' :: n)))))) Caps.empty
      ⟨0 + 4 + 1 + 3,
        ('g' :: 'i' :: 't' :: 'h' :: 'u' :: 'b' :: '.' :: 'c' :: 'o' :: 'm' :: '/' :: []) ++
          (o ++ ('/' :: n)), Caps.empty⟩ :=
    heads_opt_match (heads_cat hhttp (heads_cat (heads_opt_match hs) hsep))
  have hwww : Heads (.opt (.lit ('w' :: 'w' :: 'w' :: '.' :: []))) (0 + 4 + 1 + 3)
      (('g' :: 'i' :: 't' :: 'h' :: 'u' :: 'b' :: '.' :: 'c' :: 'o' :: 'm' :: '/' :: []) ++
        (o ++ ('/' :: n))) Caps.empty
      ⟨0 + 4 + 1 + 3,
        ('g' :: 'i' :: 't' :: 'h' :: 'u' :: 'b' :: '.' :: 'c' :: 'o' :: 'm' :: '/' :: []) ++
          (o ++ ('/' :: n)), Caps.empty⟩ :=
    heads_opt_skip rfl
  have hgh := lit_step
    ('g' :: 'i' :: 't' :: 'h' :: 'u' :: 'b' :: '.' :: 'c' :: 'o' :: 'm' :: '/' :: [])
    (o ++ ('/' :: n)) (0 + 4 + 1 + 3) Caps.empty
  have htail := webRE_tail_heads ho ho2 hn hn2 (0 + 4 + 1 + 3 + 11) Caps.empty
  have hall := heads_cat hscheme (heads_cat hwww (heads_cat hgh htail))
  simpa using hall

/-- `Heads` at the committed scan position determines `searchFrom`. -/
theorem searchFrom_of_heads {r : RE} {p : Nat} {cs : List Char} {out : MRes}
    (h : Heads r p cs Caps.empty out) :
    searchFrom r p cs = some out.caps := by
  obtain ⟨t, ht⟩ := h
  cases cs with
  | nil => rw [searchFrom, ht]
  | cons c rest => rw [searchFrom, ht]

/-- Rule 1 also commits on a `github.com/owner/name` occurrence that is
not at host position (here after a stray leading `x`). -/
theorem webRE_xPrefix_search {o n : List Char} (ho : o ≠ [])
    (ho2 : ∀ c ∈ o, notSlash c = true) (hn : n ≠ [])
    (hn2 : ∀ c ∈ n, notSlashDot c = true) :
    Rex.search githubWebRE
      ('x' :: (('g' :: 'i' :: 't' :: 'h' :: 'u' :: 'b' :: '.' :: 'c' :: 'o' :: 'm' :: '/' :: []) ++
        (o ++ ('/' :: n)))) =
      some ⟨some o, some n, none, none⟩ := by
  have hfail0 : mtch githubWebRE 0
      ('x' :: (('g' :: 'i' :: 't' :: 'h' :: 'u' :: 'b' :: '.' :: 'c' :: 'o' :: 'm' :: '/' :: []) ++
        (o ++ ('/' :: n)))) Caps.empty = [] := rfl
  have hscheme : Heads (.opt (.cat (.lit ('h' :: 't' :: 't' :: 'p' :: []))
      (.cat (.opt (.lit ('s' :: []))) (.lit (':' :: '/' :: '/' :: []))))) 1
      (('g' :: 'i' :: 't' :: 'h' :: 'u' :: 'b' :: '.' :: 'c' :: 'o' :: 'm' :: '/' :: []) ++
        (o ++ ('/' :: n))) Caps.empty
      ⟨1, ('g' :: 'i' :: 't' :: 'h' :: 'u' :: 'b' :: '.' :: 'c' :: 'o' :: 'm' :: '/' :: []) ++
        (o ++ ('/' :: n)), Caps.empty⟩ :=
    heads_opt_skip rfl
  have hwww : Heads (.opt (.lit ('w' :: 'w' :: 'w' :: '.' :: []))) 1
      (('g' :: 'i' :: 't' :: 'h' :: 'u' :: 'b' :: '.' :: 'c' :: 'o' :: 'm' :: '/' :: []) ++
        (o ++ ('/' :: n))) Caps.empty
      ⟨1, ('g' :: 'i' :: 't' :: 'h' :: 'u' :: 'b' :: '.' :: 'c' :: 'o' :: 'm' :: '/' :: []) ++
        (o ++ ('/' :: n)), Caps.empty⟩ :=
    heads_opt_skip rfl
  have hgh := lit_step
    ('g' :: 'i' :: 't' :: 'h' :: 'u' :: 'b' :: '.' :: 'c' :: 'o' :: 'm' :: '/' :: [])
    (o ++ ('/' :: n)) 1 Caps.empty
  have htail := webRE_tail_heads ho ho2 hn hn2 (1 + 11) Caps.empty
  have hallG : Heads githubWebRE 1
      (('g' :: 'i' :: 't' :: 'h' :: 'u' :: 'b' :: '.' :: 'c' :: 'o' :: 'm' :: '/' :: []) ++
        (o ++ ('/' :: n))) Caps.empty
      ⟨1 + 11 + o.length + 1 + n.length, [], (Caps.empty.set 1 o).set 2 n⟩ :=
    heads_cat hscheme (heads_cat hwww (heads_cat hgh htail))
  unfold Rex.search
  rw [searchFrom_step hfail0, searchFrom_of_heads hallG]
  rfl

end Rex

/-- C7 counterexample: `github.com` occurring after another host still
parses under rule 1 (the regex is unanchored), contradicting the
claimed host-position requirement. -/
theorem rule1_anchoring_counterexample :
    Rex.search githubWebRE ("https://evil.com/github.com/acme/widgets").data =
      some ⟨some ("acme".data), some ("widgets".data), none, none⟩ ∧
    parseRepoUrl (.str "https://evil.com/github.com/acme/widgets") =
      some ⟨"acme", "widgets"⟩ := by decide

/-- C7 (amended): rule 1 performs an unanchored substring search: a
well-formed host-position URL parses to `(owner, name)`, and so does
any string with `github.com/owner/name` at a non-host position. -/
theorem rule1_unanchored_substring (o n : String) (ho : o.data ≠ [])
    (ho2 : ∀ c ∈ o.data, c ≠ '/') (hn : n.data ≠ [])
    (hn2 : ∀ c ∈ n.data, c ≠ '/' ∧ c ≠ '.') :
    Rex.search githubWebRE ("https://github.com/" ++ o ++ "/" ++ n).data =
      some ⟨some o.data, some n.data, none, none⟩ ∧
    Rex.search githubWebRE ("xgithub.com/" ++ o ++ "/" ++ n).data =
      some ⟨some o.data, some n.data, none, none⟩ ∧
    parseRepoUrl (.str ("https://github.com/" ++ o ++ "/" ++ n)) =
      some ⟨o, n⟩ ∧
    parseRepoUrl (.str ("xgithub.com/" ++ o ++ "/" ++ n)) = some ⟨o, n⟩ := by
  have ho2b : ∀ c ∈ o.data, notSlash c = true := by
    intro c hc
    simp [notSlash, ho2 c hc]
  have hn2b : ∀ c ∈ n.data, notSlashDot c = true := by
    intro c hc
    simp [notSlashDot, (hn2 c hc).1, (hn2 c hc).2]
  have hd1 : ("https://github.com/" ++ o ++ "/" ++ n).data =
      ('h' :: 't' :: 't' :: 'p' :: []) ++ (('s' :: []) ++
        ((':' :: '/' :: '/' :: []) ++
          (('g' :: 'i' :: 't' :: 'h' :: 'u' :: 'b' :: '.' :: 'c' :: 'o' :: 'm' :: '/' :: []) ++
            (o.data ++ ('/' :: n.data))))) := by
    simp only [String.data_append, List.append_assoc]
    rfl
  have hd2 : ("xgithub.com/" ++ o ++ "/" ++ n).data =
      'x' :: (('g' :: 'i' :: 't' :: 'h' :: 'u' :: 'b' :: '.' :: 'c' :: 'o' :: 'm' :: '/' :: []) ++
        (o.data ++ ('/' :: n.data))) := by
    simp only [String.data_append, List.append_assoc]
    rfl
  have hs1 : Rex.search githubWebRE
      ("https://github.com/" ++ o ++ "/" ++ n).data =
      some ⟨some o.data, some n.data, none, none⟩ := by
    rw [hd1]
    exact Rex.search_of_heads (Rex.webRE_hostPosition_heads ho ho2b hn hn2b)
  have hs2 : Rex.search githubWebRE ("xgithub.com/" ++ o ++ "/" ++ n).data =
      some ⟨some o.data, some n.data, none, none⟩ := by
    rw [hd2]
    exact Rex.webRE_xPrefix_search ho ho2b hn hn2b
  refine ⟨hs1, hs2, ?_, ?_⟩
  · have hne : ("https://github.com/" ++ o ++ "/" ++ n) ≠ "" := by
      intro he
      have hz : ("https://github.com/" ++ o ++ "/" ++ n).data = [] := by
        rw [he]
      rw [hd1] at hz
      cases hz
    simp only [parseRepoUrl]
    rw [if_neg hne, hs1]
    rfl
  · have hne : ("xgithub.com/" ++ o ++ "/" ++ n) ≠ "" := by
      intro he
      have hz : ("xgithub.com/" ++ o ++ "/" ++ n).data = [] := by
        rw [he]
      rw [hd2] at hz
      cases hz
    simp only [parseRepoUrl]
    rw [if_neg hne, hs2]
    rfl

/-- C7 witness: the amended theorem at `(acme, widgets)`. -/
theorem rule1_unanchored_substring_witness :
    parseRepoUrl (.str ("https://github.com/" ++ "acme" ++ "/" ++ "widgets")) =
      some ⟨"acme", "widgets"⟩ ∧
    parseRepoUrl (.str ("xgithub.com/" ++ "acme" ++ "/" ++ "widgets")) =
      some ⟨"acme", "widgets"⟩ := by
  have h := rule1_unanchored_substring "acme" "widgets" (by decide) (by decide)
    (by decide) (by decide)
  exact ⟨h.2.2.1, h.2.2.2⟩

/-! ## Engine meta-lemmas: capture provenance -/

namespace Rex

theorem mem_downFrom {k n : Nat} (h : k ∈ downFrom n) : 1 ≤ k ∧ k ≤ n := by
  induction n with
  | zero => cases h
  | succ n ih =>
    rcases List.mem_cons.mp h with h1 | h1
    · omega
    · have := ih h1
      omega

theorem take_infix {α : Type} (k : Nat) (l : List α) :
    List.IsInfix (l.take k) l :=
  ⟨[], l.drop k, by simp⟩

theorem caps_get_set_cases (c : Caps) (i j : Nat) (v : List Char) :
    (c.set i v).get j = c.get j ∨ (j = i ∧ (c.set i v).get j = some v) := by
  rcases i with _ | _ | _ | _ | _ | i <;>
    rcases j with _ | _ | _ | _ | _ | j <;>
      simp [Caps.set, Caps.get]

theorem caps_get_set_self (c : Caps) (i : Nat) (v : List Char)
    (h1 : 1 ≤ i) (h2 : i ≤ 4) : (c.set i v).get i = some v := by
  interval_cases i <;> simp [Caps.set, Caps.get]

/-- Position bookkeeping: every outcome sits at or after the entry
position and its remainder is the matching drop of the input. -/
theorem mtch_sync : ∀ (r : RE) (p : Nat) (cs : List Char) (caps : Caps),
    ∀ m ∈ mtch r p cs caps, p ≤ m.pos ∧ m.rest = cs.drop (m.pos - p) := by
  intro r
  induction r with
  | bol =>
    intro p cs caps m hm
    simp only [mtch] at hm
    split at hm <;> simp_all
  | eos =>
    intro p cs caps m hm
    simp only [mtch] at hm
    split at hm <;> simp_all
  | lit s =>
    intro p cs caps m hm
    simp only [mtch] at hm
    split at hm <;> simp_all
  | one f =>
    intro p cs caps m hm
    simp only [mtch] at hm
    rcases cs with _ | ⟨c, rest⟩
    · cases hm
    · split at hm <;> simp_all
  | plus f =>
    intro p cs caps m hm
    simp only [mtch, List.mem_map] at hm
    obtain ⟨k, _, rfl⟩ := hm
    simp
  | rep f lo hi =>
    intro p cs caps m hm
    simp only [mtch, List.mem_map, List.mem_filter] at hm
    obtain ⟨k, _, rfl⟩ := hm
    simp
  | opt r ih =>
    intro p cs caps m hm
    simp only [mtch, List.mem_append, List.mem_singleton] at hm
    rcases hm with hm | rfl
    · exact ih p cs caps m hm
    · simp
  | alt a b iha ihb =>
    intro p cs caps m hm
    simp only [mtch, List.mem_append] at hm
    rcases hm with hm | hm
    · exact iha p cs caps m hm
    · exact ihb p cs caps m hm
  | cat a b iha ihb =>
    intro p cs caps m hm
    simp only [mtch, List.mem_flatMap] at hm
    obtain ⟨m1, hm1, hm⟩ := hm
    obtain ⟨h1, h2⟩ := iha p cs caps m1 hm1
    obtain ⟨h3, h4⟩ := ihb m1.pos m1.rest m1.caps m hm
    refine ⟨by omega, ?_⟩
    rw [h4, h2, List.drop_drop]
    congr 1
    omega
  | grp i r ih =>
    intro p cs caps m hm
    simp only [mtch, List.mem_map] at hm
    obtain ⟨m1, hm1, rfl⟩ := hm
    exact ih p cs caps m1 hm1

/-- A capture slot that is set stays set through any further
matching. -/
theorem mtch_caps_mono (i : Nat) : ∀ (r : RE) (p : Nat) (cs : List Char)
    (caps : Caps), ∀ m ∈ mtch r p cs caps,
    (Caps.get caps i).isSome = true → (Caps.get m.caps i).isSome = true := by
  intro r
  induction r with
  | bol =>
    intro p cs caps m hm hs
    simp only [mtch] at hm
    split at hm <;> simp_all
  | eos =>
    intro p cs caps m hm hs
    simp only [mtch] at hm
    split at hm <;> simp_all
  | lit s =>
    intro p cs caps m hm hs
    simp only [mtch] at hm
    split at hm <;> simp_all
  | one f =>
    intro p cs caps m hm hs
    simp only [mtch] at hm
    rcases cs with _ | ⟨c, rest⟩
    · cases hm
    · split at hm <;> simp_all
  | plus f =>
    intro p cs caps m hm hs
    simp only [mtch, List.mem_map] at hm
    obtain ⟨k, _, rfl⟩ := hm
    exact hs
  | rep f lo hi =>
    intro p cs caps m hm hs
    simp only [mtch, List.mem_map, List.mem_filter] at hm
    obtain ⟨k, _, rfl⟩ := hm
    exact hs
  | opt r ih =>
    intro p cs caps m hm hs
    simp only [mtch, List.mem_append, List.mem_singleton] at hm
    rcases hm with hm | rfl
    · exact ih p cs caps m hm hs
    · exact hs
  | alt a b iha ihb =>
    intro p cs caps m hm hs
    simp only [mtch, List.mem_append] at hm
    rcases hm with hm | hm
    · exact iha p cs caps m hm hs
    · exact ihb p cs caps m hm hs
  | cat a b iha ihb =>
    intro p cs caps m hm hs
    simp only [mtch, List.mem_flatMap] at hm
    obtain ⟨m1, hm1, hm⟩ := hm
    exact ihb m1.pos m1.rest m1.caps m hm (iha p cs caps m1 hm1 hs)
  | grp j r ih =>
    intro p cs caps m hm hs
    simp only [mtch, List.mem_map] at hm
    obtain ⟨m1, hm1, rfl⟩ := hm
    have hsub := ih p cs caps m1 hm1 hs
    rcases caps_get_set_cases m1.caps j i (cs.take (m1.pos - p)) with h | ⟨_, h⟩
    · simpa [h] using hsub
    · simp [h]

/-- In a `goodG` regex, an outcome capture slot is either untouched or
holds a nonempty infix of the node input. -/
theorem mtch_caps_origin (i : Nat) : ∀ (r : RE), goodG r →
    ∀ (p : Nat) (cs : List Char) (caps : Caps), ∀ m ∈ mtch r p cs caps,
    Caps.get m.caps i = Caps.get caps i ∨
      ∃ xs, Caps.get m.caps i = some xs ∧ xs ≠ [] ∧ List.IsInfix xs cs := by
  intro r
  induction r with
  | bol =>
    intro _ p cs caps m hm
    simp only [mtch] at hm
    split at hm <;> simp_all
  | eos =>
    intro _ p cs caps m hm
    simp only [mtch] at hm
    split at hm <;> simp_all
  | lit s =>
    intro _ p cs caps m hm
    simp only [mtch] at hm
    split at hm <;> simp_all
  | one f =>
    intro _ p cs caps m hm
    simp only [mtch] at hm
    rcases cs with _ | ⟨c, rest⟩
    · cases hm
    · split at hm <;> simp_all
  | plus f =>
    intro _ p cs caps m hm
    simp only [mtch, List.mem_map] at hm
    obtain ⟨k, _, rfl⟩ := hm
    left; rfl
  | rep f lo hi =>
    intro _ p cs caps m hm
    simp only [mtch, List.mem_map, List.mem_filter] at hm
    obtain ⟨k, _, rfl⟩ := hm
    left; rfl
  | opt r ih =>
    intro hg p cs caps m hm
    simp only [mtch, List.mem_append, List.mem_singleton] at hm
    rcases hm with hm | rfl
    · exact ih hg p cs caps m hm
    · left; rfl
  | alt a b iha ihb =>
    intro hg p cs caps m hm
    simp only [mtch, List.mem_append] at hm
    rcases hm with hm | hm
    · exact iha hg.1 p cs caps m hm
    · exact ihb hg.2 p cs caps m hm
  | cat a b iha ihb =>
    intro hg p cs caps m hm
    simp only [mtch, List.mem_flatMap] at hm
    obtain ⟨m1, hm1, hm⟩ := hm
    have hsync := mtch_sync a p cs caps m1 hm1
    rcases ihb hg.2 m1.pos m1.rest m1.caps m hm with h | ⟨xs, hx1, hx2, hx3⟩
    · rcases iha hg.1 p cs caps m1 hm1 with h2 | ⟨xs, hx1, hx2, hx3⟩
      · left; rw [h, h2]
      · right
        exact ⟨xs, by rw [h, hx1], hx2, hx3⟩
    · right
      refine ⟨xs, hx1, hx2, ?_⟩
      have hsuf : List.IsSuffix m1.rest cs := by
        rw [hsync.2]
        exact List.drop_suffix _ _
      exact hx3.trans hsuf.isInfix
  | grp j r ih =>
    intro hg p cs caps m hm
    obtain ⟨f, rfl⟩ := hg
    simp only [mtch, List.mem_map] at hm
    obtain ⟨m1, ⟨k, hk, rfl⟩, rfl⟩ := hm
    have hkb := mem_downFrom hk
    rcases caps_get_set_cases caps j i (cs.take (p + k - p)) with h | ⟨_, h⟩
    · left; exact h
    · right
      refine ⟨cs.take (p + k - p), h, ?_, take_infix _ cs⟩
      intro htake
      rw [List.take_eq_nil_iff] at htake
      have hlen : (cs.takeWhile f).length ≤ cs.length :=
        List.Sublist.length_le (List.takeWhile_sublist f)
      rcases htake with h0 | h0
      · omega
      · subst h0
        simp at hkb
        omega

/-- In a regex whose slot `i` participates in every match, every
outcome has slot `i` set. -/
theorem mtch_setsG {i : Nat} (h1 : 1 ≤ i) (h4 : i ≤ 4) :
    ∀ (r : RE), setsG i r → ∀ (p : Nat) (cs : List Char) (caps : Caps),
    ∀ m ∈ mtch r p cs caps, (Caps.get m.caps i).isSome = true := by
  intro r
  induction r with
  | bol => intro hf; cases hf
  | eos => intro hf; cases hf
  | lit s => intro hf; cases hf
  | one f => intro hf; cases hf
  | plus f => intro hf; cases hf
  | rep f lo hi => intro hf; cases hf
  | opt r _ => intro hf; cases hf
  | alt a b iha ihb =>
    intro hs p cs caps m hm
    simp only [mtch, List.mem_append] at hm
    rcases hm with hm | hm
    · exact iha hs.1 p cs caps m hm
    · exact ihb hs.2 p cs caps m hm
  | cat a b iha ihb =>
    intro hs p cs caps m hm
    simp only [mtch, List.mem_flatMap] at hm
    obtain ⟨m1, hm1, hm⟩ := hm
    rcases hs with hs | hs
    · exact mtch_caps_mono i b m1.pos m1.rest m1.caps m hm
        (iha hs p cs caps m1 hm1)
    · exact ihb hs m1.pos m1.rest m1.caps m hm
  | grp j r ih =>
    intro hs p cs caps m hm
    simp only [mtch, List.mem_map] at hm
    obtain ⟨m1, hm1, rfl⟩ := hm
    rcases hs with rfl | hs
    · simp [caps_get_set_self m1.caps j _ h1 h4]
    · have hsub := ih hs p cs caps m1 hm1
      rcases caps_get_set_cases m1.caps j i (cs.take (m1.pos - p)) with h | ⟨_, h⟩
      · simpa [h] using hsub
      · simp [h]

/-- The captures returned by `search` come from a match attempt on a
suffix of the subject. -/
theorem search_origin {r : RE} {cs : List Char} {caps : Caps}
    (h : Rex.search r cs = some caps) :
    ∃ q cs1 m, List.IsSuffix cs1 cs ∧ m ∈ mtch r q cs1 Caps.empty ∧
      caps = m.caps := by
  unfold Rex.search at h
  suffices hgen : ∀ (cs0 : List Char) (p : Nat),
      searchFrom r p cs0 = some caps →
      ∃ q cs1 m, List.IsSuffix cs1 cs0 ∧ m ∈ mtch r q cs1 Caps.empty ∧
        caps = m.caps by
    exact hgen cs 0 h
  intro cs0
  induction cs0 with
  | nil =>
    intro p hp
    rw [searchFrom] at hp
    cases hm : mtch r p [] Caps.empty with
    | nil => rw [hm] at hp; cases hp
    | cons m t =>
      rw [hm] at hp
      simp only [Option.some.injEq] at hp
      exact ⟨p, [], m, List.suffix_rfl,
        by rw [hm]; exact List.mem_cons_self _ _, hp.symm⟩
  | cons c rest ih =>
    intro p hp
    rw [searchFrom] at hp
    cases hm : mtch r p (c :: rest) Caps.empty with
    | cons m t =>
      rw [hm] at hp
      simp only [Option.some.injEq] at hp
      exact ⟨p, c :: rest, m, List.suffix_rfl,
        by rw [hm]; exact List.mem_cons_self _ _, hp.symm⟩
    | nil =>
      rw [hm] at hp
      obtain ⟨q, cs1, m, hsuf, hmem, hcaps⟩ := ih (p + 1) hp
      exact ⟨q, cs1, m, hsuf.trans (List.suffix_cons c rest), hmem, hcaps⟩

theorem goodG_webRE : goodG githubWebRE :=
  ⟨⟨trivial, trivial, trivial⟩,
   trivial,
   trivial,
   ⟨notSlash, rfl⟩,
   trivial,
   ⟨notSlashDot, rfl⟩,
   trivial⟩

theorem goodG_sshRE : goodG gitSshRE :=
  ⟨trivial, ⟨notSlash, rfl⟩, trivial, ⟨notSlashDot, rfl⟩, trivial⟩

theorem goodG_ownerRepoRE : goodG ownerRepoRE :=
  ⟨trivial, ⟨notSlash, rfl⟩, trivial, ⟨notSlash, rfl⟩, trivial⟩

theorem setsG_webRE_1 : setsG 1 githubWebRE :=
  Or.inr (Or.inr (Or.inr (Or.inl (Or.inl rfl))))

theorem setsG_webRE_2 : setsG 2 githubWebRE :=
  Or.inr (Or.inr (Or.inr (Or.inr (Or.inr (Or.inl (Or.inl rfl))))))

theorem setsG_sshRE_1 : setsG 1 gitSshRE :=
  Or.inr (Or.inl (Or.inl rfl))

theorem setsG_sshRE_2 : setsG 2 gitSshRE :=
  Or.inr (Or.inr (Or.inr (Or.inl (Or.inl rfl))))

theorem setsG_ownerRepoRE_1 : setsG 1 ownerRepoRE :=
  Or.inr (Or.inl (Or.inl rfl))

theorem setsG_ownerRepoRE_2 : setsG 2 ownerRepoRE :=
  Or.inr (Or.inr (Or.inr (Or.inl (Or.inl rfl))))

/-- Any successful search with one of the parser regexes yields both
captures set, nonempty, and infixes of the subject. -/
theorem search_caps_good {re : RE} (hg : goodG re) (hs1 : setsG 1 re)
    (hs2 : setsG 2 re) {s : List Char} {caps : Caps}
    (h : Rex.search re s = some caps) :
    ∃ xs ys, caps.s1 = some xs ∧ caps.s2 = some ys ∧ xs ≠ [] ∧ ys ≠ [] ∧
      List.IsInfix xs s ∧ List.IsInfix ys s := by
  obtain ⟨q, cs1, m, hsuf, hmem, rfl⟩ := search_origin h
  have hd1 := mtch_setsG (by omega) (by omega) re hs1 q cs1 Caps.empty m hmem
  have hd2 := mtch_setsG (by omega) (by omega) re hs2 q cs1 Caps.empty m hmem
  have ho1 := mtch_caps_origin 1 re hg q cs1 Caps.empty m hmem
  have ho2 := mtch_caps_origin 2 re hg q cs1 Caps.empty m hmem
  rcases ho1 with h1 | ⟨xs, hx1, hx2, hx3⟩
  · rw [h1] at hd1
    cases hd1
  · rcases ho2 with h2 | ⟨ys, hy1, hy2, hy3⟩
    · rw [h2] at hd2
      cases hd2
    · exact ⟨xs, ys, hx1, hy1, hx2, hy2, hx3.trans hsuf.isInfix,
        hy3.trans hsuf.isInfix⟩

end Rex

/-- C9: the embedded `parseRepoUrl` is a total function (no exception
path exists in the embedding); on every input — string, `null`, or a
non-string value — it returns `null` or a `RepoRef` whose `owner` and
`name` are both nonempty and are verbatim (case-preserving) contiguous
substrings of the input string. -/
theorem parseRepoUrl_total_safe (input : JSArg) :
    parseRepoUrl input = none ∨
    (∃ s o n, input = JSArg.str s ∧ parseRepoUrl input = some ⟨o, n⟩ ∧
      o ≠ "" ∧ n ≠ "" ∧ List.IsInfix o.data s.data ∧
      List.IsInfix n.data s.data) := by
  cases input with
  | nullv => left; rfl
  | nonString => left; rfl
  | str s =>
    by_cases hse : s = ""
    · left
      simp [parseRepoUrl, hse]
    · have hmk : ∀ xs : List Char, xs ≠ [] → String.mk xs ≠ "" := by
        intro xs hxs he
        apply hxs
        have hq : (String.mk xs).data = ("" : String).data := by rw [he]
        simpa using hq
      cases h1 : Rex.search githubWebRE s.data with
      | some caps =>
        obtain ⟨xs, ys, hx1, hy1, hx2, hy2, hx3, hy3⟩ :=
          Rex.search_caps_good Rex.goodG_webRE Rex.setsG_webRE_1
            Rex.setsG_webRE_2 h1
        right
        refine ⟨s, String.mk xs, String.mk ys, rfl, ?_, hmk xs hx2, hmk ys hy2,
          hx3, hy3⟩
        simp [parseRepoUrl, hse, h1, refOfCaps, hx1, hy1]
      | none =>
        cases h2 : Rex.search gitSshRE s.data with
        | some caps =>
          obtain ⟨xs, ys, hx1, hy1, hx2, hy2, hx3, hy3⟩ :=
            Rex.search_caps_good Rex.goodG_sshRE Rex.setsG_sshRE_1
              Rex.setsG_sshRE_2 h2
          right
          refine ⟨s, String.mk xs, String.mk ys, rfl, ?_, hmk xs hx2,
            hmk ys hy2, hx3, hy3⟩
          simp [parseRepoUrl, hse, h1, h2, refOfCaps, hx1, hy1]
        | none =>
          cases h3 : Rex.search ownerRepoRE s.data with
          | some caps =>
            obtain ⟨xs, ys, hx1, hy1, hx2, hy2, hx3, hy3⟩ :=
              Rex.search_caps_good Rex.goodG_ownerRepoRE
                Rex.setsG_ownerRepoRE_1 Rex.setsG_ownerRepoRE_2 h3
            right
            refine ⟨s, String.mk xs, String.mk ys, rfl, ?_, hmk xs hx2,
              hmk ys hy2, hx3, hy3⟩
            simp [parseRepoUrl, hse, h1, h2, h3, refOfCaps, hx1, hy1]
          | none =>
            left
            simp [parseRepoUrl, hse, h1, h2, h3]

/-! ## C6: partial-assembly resilience -/

theorem jsGetE_ok {v : JSV} (h : v ≠ JSV.nullv) (k : String) :
    jsGetE v k = .ok (jsGet v k) := by
  cases v with
  | nullv => exact absurd rfl h
  | bool b => rfl
  | num n => rfl
  | str s => rfl
  | arr l => rfl
  | obj l => rfl

theorem exceptBind_ok {ε α β : Type} (a : α) (f : α → Except ε β) :
    (Except.ok a >>= f) = f a := rfl

theorem fetchFileContent_null_of_error (net : NetOracle)
    (b64 : String → String) (repoOwner repoName f e : String)
    (h : net ("/repos/" ++ repoOwner ++ "/" ++ repoName ++ "/contents/" ++ f) =
      .error e) :
    fetchFileContent net b64 repoOwner repoName f false = JSV.nullv := by
  have hdata : fetchGitHubAPI net
      ("/repos/" ++ repoOwner ++ "/" ++ repoName ++ "/contents/" ++ f) =
      JSV.nullv := by
    unfold fetchGitHubAPI
    rw [h]
  simp only [fetchFileContent, hdata]
  rfl

theorem fetchReadme_go_null (net : NetOracle) (b64 : String → String)
    (repoOwner repoName : String) :
    ∀ fs : List String,
      (∀ f ∈ fs, ∃ e,
        net ("/repos/" ++ repoOwner ++ "/" ++ repoName ++ "/contents/" ++ f) =
          .error e) →
      fetchReadme.go net b64 repoOwner repoName fs = JSV.nullv := by
  intro fs
  induction fs with
  | nil => intro _; rfl
  | cons f rest ih =>
    intro h
    obtain ⟨e, he⟩ := h f (List.mem_cons_self _ _)
    have hn := fetchFileContent_null_of_error net b64 repoOwner repoName f e he
    simp only [fetchReadme.go, hn]
    exact ih (fun x hx => h x (List.mem_cons_of_mem _ hx))

theorem fetchReadme_null_of_fail (net : NetOracle) (b64 : String → String)
    (repoOwner repoName : String)
    (h : ∀ f ∈ readmeFiles, ∃ e,
      net ("/repos/" ++ repoOwner ++ "/" ++ repoName ++ "/contents/" ++ f) =
        .error e) :
    fetchReadme net b64 repoOwner repoName = JSV.nullv :=
  fetchReadme_go_null net b64 repoOwner repoName readmeFiles h

/-- C6: partial-assembly resilience.  When the base metadata fetch
succeeds (truthy body, no error `message`, an `owner` object present)
but every README content request fails, the assembly still returns a
record — it does not raise — in which `readme` is `null` while every
other requested sub-resource key holds its fetched value. -/
theorem enhanced_assembly_readme_resilient (net : NetOracle)
    (b64 : String → String) (subs : SubResults) (repoName repoOwner : String)
    (hbase : jsTruthy
      (fetchGitHubAPI net ("/repos/" ++ repoOwner ++ "/" ++ repoName)) = true)
    (hmsg : jsTruthy (jsGet
      (fetchGitHubAPI net ("/repos/" ++ repoOwner ++ "/" ++ repoName))
      "message") = false)
    (howner : jsGet
      (fetchGitHubAPI net ("/repos/" ++ repoOwner ++ "/" ++ repoName))
      "owner" ≠ JSV.nullv)
    (hread : ∀ f ∈ readmeFiles, ∃ e,
      net ("/repos/" ++ repoOwner ++ "/" ++ repoName ++ "/contents/" ++ f) =
        .error e) :
    ∃ rec, fetchEnhancedRepositoryData net b64 subs repoName repoOwner
        allOptions = .ok (some rec) ∧
      JsObj.get rec "readme" = some JSV.nullv ∧
      JsObj.get rec "languages" = some subs.languages ∧
      JsObj.get rec "stats" =
        some (.obj [("commit_activity", subs.commitActivity),
                    ("contributors", subs.contributors),
                    ("code_frequency", subs.codeFrequency),
                    ("participation", subs.participation)]) ∧
      JsObj.get rec "releases" = some subs.releases ∧
      JsObj.get rec "workflows" = some subs.workflows ∧
      JsObj.get rec "workflow_runs" = some subs.workflowRuns ∧
      JsObj.get rec "cicd_status" = some subs.cicdStatus ∧
      JsObj.get rec "deployments" = some subs.deployments ∧
      JsObj.get rec "npm" = some subs.npmInfo ∧
      JsObj.get rec "deployment_links" = some subs.deploymentLinks := by
  have hnull : fetchReadme net b64 repoOwner repoName = JSV.nullv :=
    fetchReadme_null_of_fail net b64 repoOwner repoName hread
  have hcond : ¬((!jsTruthy
      (fetchGitHubAPI net ("/repos/" ++ repoOwner ++ "/" ++ repoName)) ||
      jsTruthy (jsGet
        (fetchGitHubAPI net ("/repos/" ++ repoOwner ++ "/" ++ repoName))
        "message")) = true) := by
    rw [hbase, hmsg]
    decide
  have hres : fetchEnhancedRepositoryData net b64 subs repoName repoOwner
      allOptions = .ok (some (fullAssembly net b64 subs repoName repoOwner)) := by
    simp only [fetchEnhancedRepositoryData]
    rw [if_neg hcond]
    simp only [jsGetE_ok howner, exceptBind_ok]
    rfl
  refine ⟨fullAssembly net b64 subs repoName repoOwner, hres,
    ?_, ?_, ?_, ?_, ?_, ?_, ?_, ?_, ?_, ?_⟩
  · simp [fullAssembly, JsObj_get_set_ne, JsObj_get_set_self, hnull]
  · simp [fullAssembly, JsObj_get_set_ne, JsObj_get_set_self]
  · simp [fullAssembly, JsObj_get_set_ne, JsObj_get_set_self]
  · simp [fullAssembly, JsObj_get_set_ne, JsObj_get_set_self]
  · simp [fullAssembly, JsObj_get_set_ne, JsObj_get_set_self]
  · simp [fullAssembly, JsObj_get_set_ne, JsObj_get_set_self]
  · simp [fullAssembly, JsObj_get_set_ne, JsObj_get_set_self]
  · simp [fullAssembly, JsObj_get_set_ne, JsObj_get_set_self]
  · simp [fullAssembly, JsObj_get_set_ne, JsObj_get_set_self]
  · simp [fullAssembly, JsObj_get_set_ne, JsObj_get_set_self]

/-- C6 witness: the theorem at a concrete oracle whose base fetch
succeeds and whose README requests all reject. -/
theorem enhanced_assembly_readme_resilient_witness :
    ∃ rec, fetchEnhancedRepositoryData witnessNet id witnessSubs "site"
        "alice" allOptions = .ok (some rec) ∧
      JsObj.get rec "readme" = some JSV.nullv ∧
      JsObj.get rec "languages" = some (JSV.str "L") ∧
      JsObj.get rec "stats" =
        some (.obj [("commit_activity", JSV.str "ca"),
                    ("contributors", JSV.str "co"),
                    ("code_frequency", JSV.str "cf"),
                    ("participation", JSV.str "pa")]) ∧
      JsObj.get rec "releases" = some (JSV.str "re") ∧
      JsObj.get rec "workflows" = some (JSV.str "wf") ∧
      JsObj.get rec "workflow_runs" = some (JSV.str "wr") ∧
      JsObj.get rec "cicd_status" = some (JSV.str "ci") ∧
      JsObj.get rec "deployments" = some (JSV.str "de") ∧
      JsObj.get rec "npm" = some (JSV.str "np") ∧
      JsObj.get rec "deployment_links" = some (JSV.str "dl") :=
  enhanced_assembly_readme_resilient witnessNet id witnessSubs "site" "alice"
    (by decide) (by decide) (fun h => JSV.noConfusion h)
    (by
      intro f hf
      refine ⟨"boom", ?_⟩
      simp only [readmeFiles, List.mem_cons, List.not_mem_nil, or_false] at hf
      rcases hf with rfl | rfl | rfl | rfl | rfl | rfl <;> rfl)

end PackageJson
